import Mathlib

/-!
Verification development for the Verilog-to-PCB synthesis pipeline
(`synth/netlist/verilog_to_pcb_final.py`).

The Python source is shallowly embedded below.  Strings are manipulated as
`List Char` internally (Python `str` is a character sequence); `Option`
results model exceptions / divergence of the Python code, with `none`
standing for an uncaught exception or non-termination.  Python `dict`s are
modelled as insertion-ordered association lists and Python `set`s as lists
with insert-if-absent, which preserves the observable structure used by the
claims (membership, counts, insertion order of keys).
-/

namespace RtlSynth

/-- Gate kinds used by the pipeline (`Gate.gate_type` strings in the source).
All gates ever constructed by the program use exactly these six kinds. -/
inductive GateType where
  | AND
  | OR
  | XOR
  | NOT
  | DFF
  | ALIAS
  deriving DecidableEq, Repr

/-- `Gate` dataclass (source lines 34-41).  The mutable `ic_instance`
back-reference is omitted: it is only written by the packer and never read
by any code the claims concern. -/
structure Gate where
  gateType : GateType
  inputs : List String
  output : String
  instanceName : String := ""
  deriving DecidableEq, Repr

/-- `ICInstance` dataclass (source lines 43-51); `position` is placement
geometry, unused by the netlist logic, and omitted. `pinAssignments` models
the `pin -> signal` dict as an insertion-ordered association list. -/
structure ICInstance where
  partNumber : String
  package : String
  instanceId : String
  gates : List Gate := []
  pinAssignments : List (String × String) := []
  deriving DecidableEq, Repr

/-- `Signal` dataclass (source lines 24-32). -/
structure Signal where
  name : String
  width : Nat := 1
  isInput : Bool := false
  isOutput : Bool := false
  isInternal : Bool := false
  isWire : Bool := false
  deriving DecidableEq, Repr

/-- `ModuleInstance` dataclass (source lines 64-69).  `connections` models
the `port -> signal` dict (keys distinct, insertion ordered). -/
structure ModuleInstance where
  moduleName : String
  instanceName : String
  connections : List (String × String) := []
  deriving DecidableEq, Repr

/-- `Module` dataclass (source lines 53-62).  The unused `submodules` field
is omitted (nothing in the source ever appends to it). -/
structure Module where
  name : String
  inputs : List Signal := []
  outputs : List Signal := []
  internalSignals : List Signal := []
  gates : List Gate := []
  instances : List ModuleInstance := []
  deriving DecidableEq, Repr

/-- First value bound to a key in an association list (Python dict lookup;
keys are distinct in every dict we model, so first = the binding). -/
def lookupAssoc {α : Type} (l : List (String × α)) (k : String) : Option α :=
  match l with
  | [] => none
  | (k', v) :: rest => if k' = k then some v else lookupAssoc rest k

/-- Python `dict.__contains__`. -/
def containsKey {α : Type} (l : List (String × α)) (k : String) : Bool :=
  (lookupAssoc l k).isSome

/-! ### Ternary rewriting (`_rewrite_ternary_to_bool`, source lines 322-360) -/

/-- One step of the parenthesis-depth update used by `find_top_ternary`:
`depth += 1` on `'('`, `depth -= 1 if depth > 0 else 0` on `')'` (Nat
subtraction clamps at zero exactly like the Python guard). -/
def depthStep (d : Nat) (c : Char) : Nat :=
  if c = '(' then d + 1 else if c = ')' then d - 1 else d

/-- The scan of `find_top_ternary` (source lines 329-345): walking the
string with the clamped depth, remembering the first depth-0 `'?'`
(`q_pos`), and returning `(q_pos, i)` at the first depth-0 `':'` seen after
it.  `i` is the absolute index of the current character. -/
def findTopAux : List Char → Nat → Nat → Option Nat → Option (Nat × Nat)
  | [], _, _, _ => none
  | c :: rest, i, depth, qpos =>
    if c = '(' then findTopAux rest (i + 1) (depth + 1) qpos
    else if c = ')' then findTopAux rest (i + 1) (depth - 1) qpos
    else if c = '?' ∧ depth = 0 ∧ qpos = none then findTopAux rest (i + 1) depth (some i)
    else if c = ':' ∧ depth = 0 ∧ qpos ≠ none then some (qpos.getD 0, i)
    else findTopAux rest (i + 1) depth qpos

/-- `find_top_ternary(s)`: position of the top-level `'?'` and its matching
`':'`, if any. -/
def findTopTernary (s : List Char) : Option (Nat × Nat) :=
  findTopAux s 0 0 none

/-- Python `str.strip()` on a character list. -/
def trimChars (l : List Char) : List Char :=
  ((l.dropWhile Char.isWhitespace).reverse.dropWhile Char.isWhitespace).reverse

/-- The f-string template `"(({c}) & ({t})) | ((~({c})) & ({e}))"` from
source line 359. -/
def tmpl (c t e : List Char) : List Char :=
  "((".toList ++ c ++ ") & (".toList ++ t ++ ")) | ((~(".toList ++ c ++ ")) & (".toList ++ e ++ "))".toList

/-- The inner recursive `rewrite` of `_rewrite_ternary_to_bool` (source
lines 347-359).  The Python recursion is on strict substrings, so fuel equal
to the string length always suffices; fuel exhaustion returns the argument
unchanged and is unreachable from `rewriteTernaryToBool` below. -/
def rewriteAux : Nat → List Char → List Char
  | 0, s => s
  | fuel + 1, s =>
    match findTopTernary s with
    | none => s
    | some (q, colon) =>
      let cond := trimChars (s.take q)
      let thenPart := trimChars ((s.drop (q + 1)).take (colon - q - 1))
      let elsePart := trimChars (s.drop (colon + 1))
      tmpl (rewriteAux fuel cond) (rewriteAux fuel thenPart) (rewriteAux fuel elsePart)

/-- `_rewrite_ternary_to_bool(expr)` (source lines 322-360): strip, quick
exit when no `'?'`, otherwise run the recursive rewrite. -/
def rewriteTernaryToBool (expr : List Char) : List Char :=
  let s := trimChars expr
  if s.contains '?' then rewriteAux s.length s else s

/-! ### Tokenizer (`_tokenize_boolean_expr`, source lines 362-380) -/

/-- Python `c.isalnum() or c == '_'` (ASCII fragment; every identifier in
the claims is ASCII). -/
def isIdentChar (c : Char) : Bool :=
  c.isAlphanum || c = '_'

/-- The tokenizer loop.  On a character that is neither whitespace, an
operator/parenthesis, nor an identifier character, the Python loop appends
an empty token without advancing `i` and therefore never terminates; that
divergence is modelled as `none`.  Every other iteration consumes at least
one character, so fuel equal to the input length never runs out on the
terminating paths. -/
def tokenizeAux : Nat → List Char → Option (List String)
  | _, [] => some []
  | 0, _ :: _ => none
  | fuel + 1, c :: rest =>
    if c.isWhitespace then tokenizeAux fuel rest
    else if c = '(' ∨ c = ')' ∨ c = '~' ∨ c = '&' ∨ c = '^' ∨ c = '|' then
      (tokenizeAux fuel rest).map (String.mk [c] :: ·)
    else
      let run := (c :: rest).takeWhile isIdentChar
      if run.isEmpty then none
      else (tokenizeAux fuel ((c :: rest).drop run.length)).map (String.mk run :: ·)

/-- `_tokenize_boolean_expr(expr)`. -/
def tokenizeChars (l : List Char) : Option (List String) :=
  tokenizeAux l.length l

/-! ### Shunting yard (`_shunting_yard`, source lines 382-411) -/

/-- The regex `^[A-Za-z_][A-Za-z0-9_]*$` used in `_shunting_yard` and
`_rpn_to_ast`. -/
def isIdentTok (t : String) : Bool :=
  match t.toList with
  | [] => false
  | c :: rest => (c.isAlpha || c = '_') && rest.all (fun d => d.isAlphanum || d = '_')

/-- Operator precedence table `{'~': 4, '&': 3, '^': 2, '|': 1}`. -/
def precOf (t : String) : Option Nat :=
  if t = "~" then some 4
  else if t = "&" then some 3
  else if t = "^" then some 2
  else if t = "|" then some 1
  else none

/-- The pop condition of the operator loop (source lines 402-405):
`~` is the only right-associative operator. -/
def shouldPop (top t : String) : Bool :=
  match precOf top, precOf t with
  | some pTop, some pT => if top = "~" then pTop > pT else pTop ≥ pT
  | _, _ => false

/-- The shunting-yard loop.  The operator stack `ops` keeps its top at the
head; the trailing `out ++ ops` realizes the final `while ops:
output.append(ops.pop())`. -/
def shuntingYardAux : List String → List String → List String → List String
  | [], out, ops => out ++ ops
  | t :: rest, out, ops =>
    if isIdentTok t then shuntingYardAux rest (out ++ [t]) ops
    else if t = "(" then shuntingYardAux rest out ("(" :: ops)
    else if t = ")" then
      let popped := ops.takeWhile (· ≠ "(")
      let remaining := ops.dropWhile (· ≠ "(")
      shuntingYardAux rest (out ++ popped)
        (if remaining.head? = some "(" then remaining.tail else remaining)
    else if (precOf t).isSome then
      shuntingYardAux rest (out ++ ops.takeWhile (shouldPop · t))
        (t :: ops.dropWhile (shouldPop · t))
    else shuntingYardAux rest out ops

/-- `_shunting_yard(tokens)`. -/
def shuntingYard (tokens : List String) : List String :=
  shuntingYardAux tokens [] []

/-! ### RPN to AST (`_rpn_to_ast`, source lines 413-425) -/

/-- Expression AST: tagged tuples `('id', name)`, `('not', a)`,
`('and'/'or'/'xor', a, b)`. -/
inductive BExpr where
  | id : String → BExpr
  | notE : BExpr → BExpr
  | andE : BExpr → BExpr → BExpr
  | xorE : BExpr → BExpr → BExpr
  | orE : BExpr → BExpr → BExpr
  deriving DecidableEq, Repr

/-- The stack loop of `_rpn_to_ast`; the stack top is at the head.  A
`stack.pop()` on an empty stack raises `IndexError` in Python, modelled as
`none`.  Tokens that are neither identifiers nor operators are skipped
(no branch matches in the Python `for`). -/
def rpnToAstAux : List String → List BExpr → Option (List BExpr)
  | [], st => some st
  | t :: rest, st =>
    if isIdentTok t then rpnToAstAux rest (BExpr.id t :: st)
    else if t = "~" then
      match st with
      | a :: st' => rpnToAstAux rest (BExpr.notE a :: st')
      | [] => none
    else if t = "&" ∨ t = "^" ∨ t = "|" then
      match st with
      | b :: a :: st' =>
        rpnToAstAux rest
          ((if t = "&" then BExpr.andE a b else if t = "^" then BExpr.xorE a b
            else BExpr.orE a b) :: st')
      | _ => none
    else rpnToAstAux rest st

/-- `_rpn_to_ast(rpn)`: outer `none` is an uncaught `IndexError`; the inner
option is Python's `stack[-1] if stack else None`. -/
def rpnToAst (rpn : List String) : Option (Option BExpr) :=
  (rpnToAstAux rpn []).map (·.head?)

/-! ### AST lowering (`_new_temp` and `_ast_to_gates`, source lines 427-459) -/

/-- The temporary net name `f"tmp_{base}_{k}"` for counter value `k`. -/
def tempName (base : String) (k : Nat) : String :=
  "tmp_" ++ base ++ "_" ++ Nat.repr k

/-- `_new_temp` (source lines 427-429): increment the counter, then render
the name.  Returns the name and the new counter. -/
def newTemp (base : String) (c : Nat) : String × Nat :=
  (tempName base (c + 1), c + 1)

/-- `_ast_to_gates(node, target, acc)` (source lines 431-459).  The Python
accumulator list `acc` (mutated by `append`) and the parser's
`_temp_counter` are threaded explicitly; the returned string is the net
carrying the node's value.  For an identifier node the code returns the
identifier itself whether or not it equals `target` (both branches of the
`if` collapse), and no gate is emitted. -/
def astToGates : BExpr → String → List Gate → Nat → String × List Gate × Nat
  | .id s, target, acc, c => (if target = s then target else s, acc, c)
  | .notE a, target, acc, c =>
    let (t1, c1) := newTemp "n" c
    let (aSig, acc1, c2) := astToGates a t1 acc c1
    (target, acc1 ++ [⟨.NOT, [aSig], target, "NOT_1_" ++ target⟩], c2)
  | .andE a b, target, acc, c =>
    let (tl, c1) := newTemp "l" c
    let (lSig, acc1, c2) := astToGates a tl acc c1
    let (tr, c3) := newTemp "r" c2
    let (rSig, acc2, c4) := astToGates b tr acc1 c3
    (target, acc2 ++ [⟨.AND, [lSig, rSig], target, "AND_2_" ++ target⟩], c4)
  | .xorE a b, target, acc, c =>
    let (tl, c1) := newTemp "l" c
    let (lSig, acc1, c2) := astToGates a tl acc c1
    let (tr, c3) := newTemp "r" c2
    let (rSig, acc2, c4) := astToGates b tr acc1 c3
    (target, acc2 ++ [⟨.XOR, [lSig, rSig], target, "XOR_2_" ++ target⟩], c4)
  | .orE a b, target, acc, c =>
    let (tl, c1) := newTemp "l" c
    let (lSig, acc1, c2) := astToGates a tl acc c1
    let (tr, c3) := newTemp "r" c2
    let (rSig, acc2, c4) := astToGates b tr acc1 c3
    (target, acc2 ++ [⟨.OR, [lSig, rSig], target, "OR_2_" ++ target⟩], c4)

/-! ### Expression compiler entry (`_parse_boolean_expr_to_gates`, lines 307-320) -/

/-- `_parse_boolean_expr_to_gates(expr, output)` with the parser's
`_temp_counter` threaded.  `none` models an uncaught Python exception or
divergence (tokenizer hang on a foreign character, `IndexError` in
`_rpn_to_ast`).  An empty RPN returns `[]` early; a `None` AST passes
through `_ast_to_gates` which emits nothing. -/
def parseBooleanExprToGates (expr : List Char) (target : String) (c : Nat) :
    Option (List Gate × Nat) :=
  match tokenizeChars (rewriteTernaryToBool expr) with
  | none => none
  | some tokens =>
    if (shuntingYard tokens).isEmpty then some ([], c)
    else
      match rpnToAst (shuntingYard tokens) with
      | none => none
      | some none => some ([], c)
      | some (some ast) => some ((astToGates ast target [] c).2.1, (astToGates ast target [] c).2.2)

/-! ### Assign statements (`_parse_assign_statement`, source lines 285-305) -/

/-- Strip all trailing `';'` characters (Python `str.rstrip(';')`). -/
def rstripSemi (l : List Char) : List Char :=
  (l.reverse.dropWhile (· = ';')).reverse

/-- The regex `^\w+$` (ASCII fragment of Python `\w`). -/
def isWordB (l : List Char) : Bool :=
  !l.isEmpty && l.all isIdentChar

/-- The normalization prefix of `_parse_assign_statement`: drop the 6
characters of `assign`, strip, return `None` when there is no `'='`
(Python returns `[]` there), otherwise split at the first `'='`, strip the
left side and strip + `rstrip(';')` the right side. -/
def assignSplit (line : String) : Option (List Char × List Char) :=
  let expr := trimChars (line.toList.drop 6)
  if expr.contains '=' then
    some (trimChars (expr.takeWhile (· ≠ '=')),
          rstripSemi (trimChars ((expr.dropWhile (· ≠ '=')).drop 1)))
  else none

/-- `_parse_assign_statement(line)` with the temp counter threaded.  A
right-hand side matching `^\w+$` yields a single `ALIAS` gate; otherwise
the expression compiler runs.  `none` models an uncaught exception. -/
def parseAssignStatement (line : String) (c : Nat) : Option (List Gate × Nat) :=
  match assignSplit line with
  | none => some ([], c)
  | some (out, rhs) =>
    if isWordB rhs then some ([⟨.ALIAS, [String.mk rhs], String.mk out, ""⟩], c)
    else parseBooleanExprToGates rhs (String.mk out) c

/-- `sanitize_signal_name` (source lines 501-506): strip, `[` and `:`
become `_`, `]` is deleted. -/
def sanitizeSignalName (s : String) : String :=
  String.mk ((trimChars s.toList).filterMap fun c =>
    if c = ']' then none
    else if c = '[' ∨ c = ':' then some '_'
    else some c)

/-- The DFF gate built for one nonblocking assignment `q <= d` inside an
`always @(posedge clk)` block (source line 245).  The surrounding regex
extraction of `(d, clk, q)` from the block text is not modelled; only the
gate construction is, which is what the arity claims concern. -/
def mkDffGate (d clk q : String) : Gate :=
  ⟨.DFF, [sanitizeSignalName d, sanitizeSignalName clk], sanitizeSignalName q, ""⟩

/-- The assign-statement branch of `_parse_body` folded over a list of
`assign` lines (source lines 216-221): each statement's gates are appended
to the module's gate list in order, with the temp counter carried across
statements.  `none` propagates an uncaught exception. -/
def parseAssignLines : List String → Nat → Option (List Gate × Nat)
  | [], c => some ([], c)
  | line :: rest, c =>
    match parseAssignStatement line c with
    | none => none
    | some (gs, c') => (parseAssignLines rest c').map (fun p => (gs ++ p.1, p.2))

/-! ### Hierarchy flattener (`flatten_module_gates`, source lines 508-565) -/

/-- Copy of a local gate into the flat list with sanitized nets (source
lines 512-517). -/
def sanitizeGate (g : Gate) : Gate :=
  ⟨g.gateType, g.inputs.map sanitizeSignalName, sanitizeSignalName g.output, g.instanceName⟩

/-- The port map of an instantiation: submodule port name to sanitized
actual net (source lines 539-542).  Note the source keys this on the
*connection* names of the instantiation, not on the submodule's declared
ports (the computed `sub_ports_in`/`sub_ports_out` sets are never used). -/
def portMapOf (inst : ModuleInstance) : List (String × String) :=
  inst.connections.map (fun p => (p.1, sanitizeSignalName p.2))

/-- Net renaming applied to every input and to the output of an inlined
gate (source lines 548-560): substitute through the port map when present,
otherwise prefix with the instance name. -/
def instMapNet (instName : String) (portMap : List (String × String)) (s : String) : String :=
  match lookupAssoc portMap s with
  | some v => v
  | none => instName ++ "_" ++ s

/-- The per-gate transformation of the inlining loop (source lines
546-564), including the instance-tag mangling. -/
def transformInstGate (inst : ModuleInstance) (g : Gate) : Gate :=
  ⟨g.gateType,
   g.inputs.map (instMapNet inst.instanceName (portMapOf inst)),
   instMapNet inst.instanceName (portMapOf inst) g.output,
   inst.instanceName ++ "_" ++ g.instanceName⟩

/-- The `UNIT_DFFE` virtual-primitive branch (source lines 522-533):
port names `D`/`d`, `CLK`/`clk`, `Q`/`q`, emitting one DFF gate when all
three are connected and nothing otherwise. -/
def unitDffeGates (inst : ModuleInstance) : List Gate :=
  let dPort := if containsKey inst.connections "D" then "D" else "d"
  let clkPort := if containsKey inst.connections "CLK" then "CLK" else "clk"
  let qPort := if containsKey inst.connections "Q" then "Q" else "q"
  match lookupAssoc inst.connections dPort, lookupAssoc inst.connections clkPort,
        lookupAssoc inst.connections qPort with
  | some d, some clk, some q =>
    [⟨.DFF, [sanitizeSignalName d, sanitizeSignalName clk], sanitizeSignalName q,
      inst.instanceName ++ "_DFF"⟩]
  | _, _, _ => []

/-- One iteration of the instance loop of `flatten_module_gates` (source
lines 521-565), parameterized by the recursive flattening function:
`UNIT_DFFE` lowers directly to a DFF; an undeclared submodule contributes
nothing (`continue`); a declared one is recursively flattened and each of
its gates is renamed through `transformInstGate`. -/
def flattenInstStep (flat : Module → List (String × Module) → Option (List Gate))
    (ms : List (String × Module)) (inst : ModuleInstance) : Option (List Gate) :=
  if inst.moduleName = "UNIT_DFFE" then some (unitDffeGates inst)
  else
    match lookupAssoc ms inst.moduleName with
    | none => some []
    | some sub =>
      match flat sub ms with
      | none => none
      | some subGates => some (subGates.map (transformInstGate inst))

/-- The instance loop of `flatten_module_gates`: the per-instance gate
lists in order. -/
def flattenInstances (flat : Module → List (String × Module) → Option (List Gate)) :
    List ModuleInstance → List (String × Module) → Option (List Gate)
  | [], _ => some []
  | inst :: rest, ms =>
    match flattenInstStep flat ms inst, flattenInstances flat rest ms with
    | some a, some b => some (a ++ b)
    | _, _ => none

/-- `flatten_module_gates(module, modules)` (source lines 508-565).  The
module table is an association list keyed by module name.  Local gates are
copied (sanitized) only when the module has no instances; then every
instance is inlined in order.  The Python recursion does not terminate on a
cyclic module graph; `none` on fuel exhaustion models that divergence, and
any fuel at least the instantiation depth gives the Python result. -/
def flattenModuleGates : Nat → Module → List (String × Module) → Option (List Gate)
  | 0, _, _ => none
  | fuel + 1, m, ms =>
    match flattenInstances (fun sub ms' => flattenModuleGates fuel sub ms') m.instances ms with
    | none => none
    | some instGates =>
      some ((if m.instances.isEmpty then m.gates.map sanitizeGate else []) ++ instGates)

/-! ### Gate-to-IC packer (`GateToICMapper`, source lines 567-693) -/

/-- One slot of a catalog pinout: input pins in order, then the output pin. -/
structure SlotPinout where
  inputs : List String
  output : String
  deriving DecidableEq, Repr

/-- One catalog entry of `ic_mappings` (source lines 571-639).  The slot
list is the `gate1..gateN` entries in declaration order; `gates_per_ic`
always equals the number of slots, so the `vcc`/`gnd` keys that follow them
in the Python pinout dict are never reached by the slot-assignment loop. -/
structure ICMapping where
  partNumber : String
  package : String
  gatesPerIC : Nat
  slots : List SlotPinout
  vccPin : String
  gndPin : String
  deriving DecidableEq, Repr

/-- The quad 2-input pinout shared by 74HC08/74HC32/74HC86. -/
def quadSlots : List SlotPinout :=
  [⟨["1", "2"], "3"⟩, ⟨["4", "5"], "6"⟩, ⟨["9", "10"], "8"⟩, ⟨["12", "13"], "11"⟩]

/-- The catalog `ic_mappings` (source lines 571-639); `ALIAS` has no entry,
matching `if gate_type in self.ic_mappings`. -/
def icMapping : GateType → Option ICMapping
  | .AND => some ⟨"74HC08", "DIP-14", 4, quadSlots, "14", "7"⟩
  | .OR => some ⟨"74HC32", "DIP-14", 4, quadSlots, "14", "7"⟩
  | .XOR => some ⟨"74HC86", "DIP-14", 4, quadSlots, "14", "7"⟩
  | .NOT => some ⟨"74HC04", "DIP-14", 6,
      [⟨["1"], "2"⟩, ⟨["3"], "4"⟩, ⟨["5"], "6"⟩, ⟨["9"], "8"⟩, ⟨["11"], "10"⟩, ⟨["13"], "12"⟩],
      "14", "7"⟩
  | .DFF => some ⟨"74HC74", "DIP-14", 2, [⟨["2", "3"], "5"⟩, ⟨["12", "11"], "9"⟩], "14", "7"⟩
  | .ALIAS => none

/-- Append a gate to the list of its kind in the grouping dict, creating
the key at the end on first occurrence (`defaultdict(list)` insertion
order). -/
def addGateToGroups : List (GateType × List Gate) → Gate → List (GateType × List Gate)
  | [], g => [(g.gateType, [g])]
  | (k, l) :: rest, g =>
    if k = g.gateType then (k, l ++ [g]) :: rest else (k, l) :: addGateToGroups rest g

/-- The `gate_counts` grouping of `map_gates_to_ics` (source lines 644-653)
restricted to non-ALIAS gates; the source builds this and the ALIAS
passthrough list in a single loop, split here into two folds over the same
list. -/
def gateGroups (gates : List Gate) : List (GateType × List Gate) :=
  gates.foldl (fun gr g => if g.gateType = .ALIAS then gr else addGateToGroups gr g) []

/-- The `passthrough_links` list of `(dst, src)` pairs for ALIAS gates
(source lines 647-652).  Python reads `gate.inputs[0]`, which would raise on
an empty input list; every ALIAS gate the program constructs has exactly one
input (see the arity claims), and `headD ""` is used as the total stand-in. -/
def passLinks (gates : List Gate) : List (String × String) :=
  gates.foldl (fun acc g =>
    if g.gateType = .ALIAS then acc ++ [(g.output, g.inputs.headD "")] else acc) []

/-- Pin assignments for the slots of one IC: gate inputs bound positionally
to the slot's input pins (`zip` stops at the shorter list, matching the
`j < len(pinout['inputs'])` guard), then the output pin (source lines
670-680).  Catalog slot pins are pairwise distinct, so the dict insertions
never overwrite and an ordered association list is faithful. -/
def slotAssignments : List SlotPinout → List Gate → List (String × String)
  | _, [] => []
  | [], _ :: _ => []
  | slot :: slots, g :: gs =>
    slot.inputs.zip g.inputs ++ [(slot.output, g.output)] ++ slotAssignments slots gs

/-- Build one `ICInstance` (source lines 661-683): slot assignments in gate
order, then the VCC and GND pins. -/
def mkIC (mp : ICMapping) (icGates : List Gate) (uid : String) : ICInstance :=
  { partNumber := mp.partNumber
    package := mp.package
    instanceId := uid
    gates := icGates
    pinAssignments := slotAssignments mp.slots icGates ++ [(mp.vccPin, "VCC"), (mp.gndPin, "GND")] }

/-- `⌈n / c⌉` as written in the source: `(len(gate_list) + gates_per_ic - 1) // gates_per_ic`. -/
def ceilDiv (n c : Nat) : Nat := (n + c - 1) / c

/-- The ICs allocated for one gate group (source lines 660-683): IC number
`i` receives the slice `gate_list[i*C : min((i+1)*C, N)]` and the reference
`U<k>` where `k-1` counts previously allocated ICs. -/
def allocForGroup (mp : ICMapping) (l : List Gate) (startId : Nat) : List ICInstance :=
  (List.range (ceilDiv l.length mp.gatesPerIC)).map fun i =>
    mkIC mp ((l.drop (i * mp.gatesPerIC)).take mp.gatesPerIC)
      ("U" ++ Nat.repr (startId + i + 1))

/-- The allocation loop over the grouped gates (source lines 656-683),
threading the running count of allocated ICs for the `U<k>` references. -/
def allocICs : List (GateType × List Gate) → Nat → List ICInstance
  | [], _ => []
  | (k, l) :: rest, n =>
    match icMapping k with
    | none => allocICs rest n
    | some mp => allocForGroup mp l n ++ allocICs rest (n + ceilDiv l.length mp.gatesPerIC)

/-- Python dict assignment `d[k] = v`: overwrite in place or append. -/
def upsertAssoc (l : List (String × String)) (kv : String × String) : List (String × String) :=
  if containsKey l kv.1 then
    l.map (fun p => if p.1 = kv.1 then (p.1, kv.2) else p)
  else l ++ [kv]

/-- `map_gates_to_ics(gates)` (source lines 641-693): real ICs for the
grouped non-ALIAS gates, then, when any ALIAS gates exist, one synthetic
pseudo-IC with reference `ALIAS` carrying the `(dst, src)` pairs as its
pin-assignment dict. -/
def mapGatesToICs (gates : List Gate) : List ICInstance :=
  let links := passLinks gates
  allocICs (gateGroups gates) 0 ++
    (if links.isEmpty then []
     else [{ partNumber := "ALIAS", package := "N/A", instanceId := "ALIAS",
             gates := [], pinAssignments := links.foldl upsertAssoc [] }])

/-! ### Net resolver (`KiCadNetlistExporter._write_nets` and helpers,
source lines 695-974).  The exporter writes s-expressions to a file; the
model below produces the list of `(net name, endpoints)` pairs in emission
order, which is the structure the net-level claims are about.  Endpoint
sets are modelled as insert-if-absent lists (Python `set`; the exporter
sorts endpoints before printing, which does not affect which nets exist). -/

/-- A `(component-ref, pin)` endpoint. -/
abbrev Endpoint := String × String

/-- A net map: name to endpoints, insertion ordered (`defaultdict(set)`). -/
abbrev Nets := List (String × List Endpoint)

/-- Add to a Python `set` (no-op when present). -/
def insertEndpoint (l : List Endpoint) (e : Endpoint) : List Endpoint :=
  if l.contains e then l else l ++ [e]

/-- `nets[name].add(ep)` on a `defaultdict(set)`: create the key at the end
when absent. -/
def netsAdd (nets : Nets) (name : String) (ep : Endpoint) : Nets :=
  match nets with
  | [] => [(name, [ep])]
  | (n, eps) :: rest =>
    if n = name then (n, insertEndpoint eps ep) :: rest
    else (n, eps) :: netsAdd rest name ep

/-- `_merge_signals_by_name` (source lines 698-708): deduplicate by name
keeping the wider declaration (width treated as 1 when falsy), preserving
first-insertion key order. -/
def mergeSignalsByName (signals : List Signal) : List Signal :=
  signals.foldl
    (fun acc s =>
      if acc.any (·.name = s.name) then
        acc.map (fun e =>
          if e.name = s.name ∧ (if s.width = 0 then 1 else s.width) > (if e.width = 0 then 1 else e.width)
          then s else e)
      else acc ++ [s])
    []

/-- The connector nets seeded for one port (source lines 834-845): one net
per bit for a wide port, otherwise a single net, each anchored at pin 1 of
its `JIN_`/`JOUT_` connector. -/
def addPortNets (front : String) (nets : Nets) (s : Signal) : Nets :=
  if s.width > 1 then
    (List.range s.width).foldl
      (fun ns i =>
        netsAdd ns (s.name ++ "_" ++ Nat.repr i)
          (front ++ "_" ++ s.name ++ "_" ++ Nat.repr i, "1"))
      nets
  else netsAdd nets s.name (front ++ "_" ++ s.name, "1")

/-- The initial net map from the module's merged input and output ports
(source lines 833-845). -/
def initialNets (m : Module) : Nets :=
  (mergeSignalsByName m.outputs).foldl (addPortNets "JOUT")
    ((mergeSignalsByName m.inputs).foldl (addPortNets "JIN") [])

/-- Adding IC pin endpoints to the net map (source lines 847-855): the
ALIAS pseudo-IC is skipped, as are pins mapped to `VCC`/`GND`. -/
def addPinNets (ics : List ICInstance) (nets : Nets) : Nets :=
  ics.foldl
    (fun ns ic =>
      if ic.partNumber = "ALIAS" then ns
      else
        ic.pinAssignments.foldl
          (fun ns2 pa =>
            if pa.2 = "VCC" ∨ pa.2 = "GND" then ns2
            else netsAdd ns2 pa.2 (ic.instanceId, pa.1))
          ns)
    nets

/-- The `(dst, src)` alias links collected from the ALIAS pseudo-IC
(source lines 849-851). -/
def aliasLinks (ics : List ICInstance) : List (String × String) :=
  (ics.filter (·.partNumber = "ALIAS")).foldl (fun acc ic => acc ++ ic.pinAssignments) []

/-- Endpoints of every pin mapped to the given power net name, over all ICs
including the ALIAS pseudo-IC (source lines 858-865), plus one pin per
decoupling capacitor (pin 1 to VCC, pin 2 to GND; source lines 869-873). -/
def powerConnections (ics : List ICInstance) (caps : List String) (netName capPin : String) :
    List Endpoint :=
  caps.foldl (fun acc cref => insertEndpoint acc (cref, capPin))
    (ics.foldl
      (fun acc ic =>
        ic.pinAssignments.foldl
          (fun acc2 pa => if pa.2 = netName then insertEndpoint acc2 (ic.instanceId, pa.1) else acc2)
          acc)
      [])

/-- `str(ic.part_number).startswith('74')` (source line 762). -/
def isRealPart (s : String) : Bool :=
  match s.toList with
  | '7' :: '4' :: _ => true
  | _ => false

/-- Capacitor references `C1..Cn`, one per real 74xx IC (source lines
761-766). -/
def capRefs (ics : List ICInstance) : List String :=
  (List.range (ics.filter (fun ic => isRealPart ic.partNumber)).length).map
    (fun i => "C" ++ Nat.repr (i + 1))

/-- Remove a key from the net map (`del nets[src]`). -/
def removeNet (nets : Nets) (name : String) : Nets :=
  nets.filter (·.1 ≠ name)

/-- Union a set of endpoints into `nets[dst]` (`nets[dst] |= eps` on a
`defaultdict`: the key is created at the end when absent). -/
def netsUnionInto (nets : Nets) (dst : String) (eps : List Endpoint) : Nets :=
  match nets with
  | [] => [(dst, eps.foldl insertEndpoint [])]
  | (n, cur) :: rest =>
    if n = dst then (n, eps.foldl insertEndpoint cur) :: rest
    else (n, cur) :: netsUnionInto rest dst eps

/-- The alias-merge loop (source lines 887-894): for each `(dst, src)`
link, when `src` is a known net union its endpoints into `dst` and delete
`src` (unless the two coincide). -/
def applyAliasMerges (links : List (String × String)) (nets : Nets) : Nets :=
  links.foldl
    (fun ns l =>
      match lookupAssoc ns l.2 with
      | none => ns
      | some srcEps =>
        let ns' := netsUnionInto ns l.1 srcEps
        if l.1 ≠ l.2 then removeNet ns' l.2 else ns')
    nets

/-- All 14 DIP pins as strings, for the five known parts; anything else
(notably the ALIAS pseudo-IC) has none (source lines 935-941,
`all_pins.get(part, [])`). -/
def allPinsOf (part : String) : List String :=
  if part = "74HC08" ∨ part = "74HC32" ∨ part = "74HC86" ∨ part = "74HC04" ∨ part = "74HC74"
  then (List.range 14).map (fun i => Nat.repr (i + 1))
  else []

/-- `_add_unused_pins_to_gnd` (source lines 932-974): per IC, the package
pins minus the assigned pins minus the power pins 7 and 14.  Python
iterates the resulting set in unspecified order; numeric order is used
here, which leaves the emitted net's presence and endpoint set unchanged. -/
def unusedPins (ics : List ICInstance) : List Endpoint :=
  ics.foldl
    (fun acc ic =>
      acc ++
        ((allPinsOf ic.partNumber).filter
          (fun p => ¬ containsKey ic.pinAssignments p ∧ p ≠ "7" ∧ p ≠ "14")).map
          (fun p => (ic.instanceId, p)))
    []

/-- The sequence of nets emitted by `_write_nets` (source lines 826-906)
followed by `_add_unused_pins_to_gnd`: the `VCC` net when it has any
endpoint, then `GND` likewise, then the signal nets after alias merging in
dict order, then `GND_UNUSED` when any unused pin exists. -/
def emittedNets (m : Module) (ics : List ICInstance) : Nets :=
  let caps := capRefs ics
  let vcc := powerConnections ics caps "VCC" "1"
  let gnd := powerConnections ics caps "GND" "2"
  let nets2 := applyAliasMerges (aliasLinks ics) (addPinNets ics (initialNets m))
  let unused := unusedPins ics
  (if vcc.isEmpty then [] else [("VCC", vcc)]) ++
    (if gnd.isEmpty then [] else [("GND", gnd)]) ++
    nets2 ++
    (if unused.isEmpty then [] else [("GND_UNUSED", unused)])

/-- The names of the emitted nets, in emission order. -/
def emittedNetNames (m : Module) (ics : List ICInstance) : List String :=
  (emittedNets m ics).map (·.1)

/-! ## Claim C1: the full-adder carry expression -/

/-- The four gates the expression compiler emits for
`(a&b)|(cin&(a^b))` with a fresh parser (`_temp_counter = 0`). -/
def c1Gates : List Gate :=
  [⟨.AND, ["a", "b"], "tmp_l_1", "AND_2_tmp_l_1"⟩,
   ⟨.XOR, ["a", "b"], "tmp_r_6", "XOR_2_tmp_r_6"⟩,
   ⟨.AND, ["cin", "tmp_r_6"], "tmp_r_4", "AND_2_tmp_r_4"⟩,
   ⟨.OR, ["tmp_l_1", "tmp_r_4"], "co", "OR_2_co"⟩]

/-- The declared (formal) port names of a module. -/
def formalPortNames (m : Module) : List String :=
  (m.inputs ++ m.outputs).map (·.name)

/-- The net renaming asserted by the spec for claim C2, keyed on the
*formal port names* of the submodule: a net matching a formal port is
substituted with the mapped sanitized actual (when a formal port has no
connection the spec gives no mapping; the instance-prefixed name is used as
the fallback, which is irrelevant to the counterexample below since it uses
a submodule with no ports at all); any other net is renamed to
`<instance>_<net>`. -/
def claimedMapNet (sub : Module) (inst : ModuleInstance) (s : String) : String :=
  if s ∈ formalPortNames sub then
    (lookupAssoc (portMapOf inst) s).getD (inst.instanceName ++ "_" ++ s)
  else inst.instanceName ++ "_" ++ s

/-- The per-gate transformation claim C2 asserts. -/
def claimedTransform (sub : Module) (inst : ModuleInstance) (g : Gate) : Gate :=
  ⟨g.gateType, g.inputs.map (claimedMapNet sub inst), claimedMapNet sub inst g.output,
   inst.instanceName ++ "_" ++ g.instanceName⟩

/-- Claim C2 as stated: inlining a declared, non-virtual submodule renames
every gate net by the formal-port rule `claimedMapNet` (stated for a parent
consisting of exactly that one instantiation, which the general claim
subsumes). -/
def c2Claim : Prop :=
  ∀ (fuel : Nat) (ms : List (String × Module)) (parent : Module)
    (inst : ModuleInstance) (sub : Module) (subFlat : List Gate),
    parent.instances = [inst] → parent.gates = [] →
    inst.moduleName ≠ "UNIT_DFFE" →
    lookupAssoc ms inst.moduleName = some sub →
    flattenModuleGates fuel sub ms = some subFlat →
    flattenModuleGates (fuel + 1) parent ms = some (subFlat.map (claimedTransform sub inst))

/-- A submodule with no declared ports whose gate reads net `foo`. -/
def c2Sub : Module := { name := "S", gates := [⟨.NOT, ["foo"], "bar", "g"⟩] }

/-- A parent instantiating `S` as `L` with the connection `.foo(x)` —
`foo` is not a formal port of `S`, yet the code substitutes `x` for it. -/
def c2Parent : Module := { name := "top", instances := [⟨"S", "L", [("foo", "x")]⟩] }

/-- An expression whose token stream ends with an operator (the claim's
"trailing operator" class of malformed expressions). -/
def trailingOpExpr (expr : List Char) : Prop :=
  ∃ toks t, tokenizeChars expr = some toks ∧ toks.getLast? = some t ∧ (precOf t).isSome

/-- Claim C4, instantiated at its trailing-operator class (the full claim
asserts this for all three malformed classes, so it implies this): the
expression compiler returns an empty gate list and does not throw. -/
def c4Claim : Prop :=
  ∀ (expr : List Char) (target : String) (c : Nat),
    trailingOpExpr expr →
    ∃ c', parseBooleanExprToGates expr target c = some ([], c')

/-- Claim C7 as stated: for a module whose gates come from parsing assign
statements, the flattened gate list never contains two gates driving the
same output net. -/
def c7Claim : Prop :=
  ∀ (lines : List String) (gs : List Gate) (cEnd fuel : Nat) (m : Module)
    (ms : List (String × Module)) (flat : List Gate),
    parseAssignLines lines 0 = some (gs, cEnd) →
    m.gates = gs → m.instances = [] →
    flattenModuleGates fuel m ms = some flat →
    (flat.map (·.output)).Nodup

/-- Claim C8 as stated: the nets section always contains `VCC`, `GND`,
every (scalar) signal net and `GND_UNUSED`, for any flattened top-level
module. -/
def c8Claim : Prop :=
  ∀ (fuel : Nat) (m : Module) (ms : List (String × Module)) (flat : List Gate),
    flattenModuleGates fuel m ms = some flat →
    "VCC" ∈ emittedNetNames m (mapGatesToICs flat) ∧
    "GND" ∈ emittedNetNames m (mapGatesToICs flat) ∧
    "GND_UNUSED" ∈ emittedNetNames m (mapGatesToICs flat)

/-- A module whose only gate is an alias (`assign y = a;`): it allocates no
real IC, so no pin is ever mapped to `VCC`/`GND` and no unused pin exists. -/
def c8Mod : Module :=
  { name := "m",
    inputs := [{ name := "a", isInput := true }],
    outputs := [{ name := "y", isOutput := true }],
    gates := [⟨.ALIAS, ["a"], "y", ""⟩] }

/-- The arity invariant: AND/OR/XOR/DFF take two inputs, NOT and ALIAS one. -/
def arityOk (g : Gate) : Bool :=
  match g.gateType with
  | .NOT => g.inputs.length == 1
  | .ALIAS => g.inputs.length == 1
  | _ => g.inputs.length == 2

/-- Number of ICs with the given part number. -/
def countPart (ics : List ICInstance) (p : String) : Nat :=
  (ics.filter (fun ic => ic.partNumber = p)).length

/-- Number of gates of the given kind. -/
def countType (gates : List Gate) (k : GateType) : Nat :=
  (gates.filter (fun g => g.gateType = k)).length

/-- The gate list grouped under a kind (empty when the kind has no group). -/
def lookupGroup : List (GateType × List Gate) → GateType → List Gate
  | [], _ => []
  | (k', l) :: rest, k => if k' = k then l else lookupGroup rest k

/-- Keys of the grouping dict, in insertion order. -/
def groupKeys (gr : List (GateType × List Gate)) : List GateType :=
  gr.map Prod.fst

/-- The signal-net names after alias merging (the keys of the net dict the
exporter iterates at source lines 897-903). -/
def signalNetKeys (m : Module) (ics : List ICInstance) : List String :=
  (applyAliasMerges (aliasLinks ics) (addPinNets ics (initialNets m))).map Prod.fst

/-- A two-input AND module used to witness the amended C8. -/
def c8WitMod : Module :=
  { name := "w",
    inputs := [{ name := "a", isInput := true }, { name := "b", isInput := true }],
    outputs := [{ name := "y", isOutput := true }] }

def digToNat (ch : Char) : Option Nat :=
  if 48 ≤ ch.toNat ∧ ch.toNat ≤ 57 then some (ch.toNat - 48) else none

def decDigitsAux : List Char → Nat → Option Nat
  | [], a => some a
  | ch :: cs, a =>
    match digToNat ch with
    | none => none
    | some d => decDigitsAux cs (a * 10 + d)

def tempN (b : Char) (k : Nat) : String :=
  String.mk ('t' :: 'm' :: 'p' :: '_' :: b :: '_' :: (Nat.repr k).data)

def targetOkFor (target : String) (c : Nat) : Prop :=
  ∀ b k, target = tempN b k → k ≤ c

def tmpPrefixed (s : String) : Bool :=
  match s.data with
  | 't' :: 'm' :: 'p' :: '_' :: _ => true
  | _ => false

def balCore : List Char → Nat → Option Nat
  | [], d => some d
  | c :: r, d =>
    if c = '(' then balCore r (d + 1)
    else if c = ')' then
      match d with
      | 0 => none
      | d' + 1 => balCore r d'
    else balCore r d

def balancedB (s : List Char) : Prop :=
  balCore s 0 = some 0

def hasTopQAux : List Char → Nat → Bool
  | [], _ => false
  | c :: r, d =>
    if c = '(' then hasTopQAux r (d + 1)
    else if c = ')' then hasTopQAux r (d - 1)
    else if c = '?' ∧ d = 0 then true
    else hasTopQAux r d

def ftB : List Char → Nat → Option (List Char × List Char)
  | [], _ => none
  | c :: rest, d =>
    if c = '(' then (ftB rest (d + 1)).map (fun p => (c :: p.1, p.2))
    else if c = ')' then (ftB rest (d - 1)).map (fun p => (c :: p.1, p.2))
    else if c = ':' ∧ d = 0 then some ([], rest)
    else (ftB rest d).map (fun p => (c :: p.1, p.2))

def ftA : List Char → Nat → Option (List Char × List Char × List Char)
  | [], _ => none
  | c :: rest, d =>
    if c = '(' then (ftA rest (d + 1)).map (fun p => (c :: p.1, p.2))
    else if c = ')' then (ftA rest (d - 1)).map (fun p => (c :: p.1, p.2))
    else if c = '?' ∧ d = 0 then (ftB rest 0).map (fun p => ([], p.1, p.2))
    else (ftA rest d).map (fun p => (c :: p.1, p.2))

def c10Claim : Prop :=
  ∀ s : List Char, rewriteTernaryToBool (rewriteTernaryToBool s) = rewriteTernaryToBool s

/-- Claim C1: compiling `assign co = (a&b)|(cin&(a^b));` emits, in order,
AND(a,b) to a fresh temporary, XOR(a,b) to a fresh temporary, AND(cin, the
XOR temporary) to a fresh temporary, and OR of the two AND/OR temporaries
to `co`; the temporaries are pairwise distinct and distinct from every
source net.  Packing these four gates allocates exactly one 74HC08 holding
the two AND gates in its first two slots, one 74HC86 holding the XOR, and
one 74HC32 holding the OR. -/
theorem c1_carry_expression_gates_and_packing :
    parseAssignStatement "assign co = (a&b)|(cin&(a^b));" 0 = some (c1Gates, 8) ∧
    ["tmp_l_1", "tmp_r_6", "tmp_r_4", "a", "b", "cin", "co"].Nodup ∧
    mapGatesToICs c1Gates =
      [{ partNumber := "74HC08", package := "DIP-14", instanceId := "U1",
         gates := [c1Gates[0], c1Gates[2]],
         pinAssignments := [("1", "a"), ("2", "b"), ("3", "tmp_l_1"),
                            ("4", "cin"), ("5", "tmp_r_6"), ("6", "tmp_r_4"),
                            ("14", "VCC"), ("7", "GND")] },
       { partNumber := "74HC86", package := "DIP-14", instanceId := "U2",
         gates := [c1Gates[1]],
         pinAssignments := [("1", "a"), ("2", "b"), ("3", "tmp_r_6"),
                            ("14", "VCC"), ("7", "GND")] },
       { partNumber := "74HC32", package := "DIP-14", instanceId := "U3",
         gates := [c1Gates[3]],
         pinAssignments := [("1", "tmp_l_1"), ("2", "tmp_r_4"), ("3", "co"),
                            ("14", "VCC"), ("7", "GND")] }] := by
  refine ⟨by decide, by decide, by decide⟩

/-! ## Claim C3: local gates are dropped when instances exist -/

/-- Claim C3: when a module has at least one instance, its flattened gate
list is computed from the instances alone — it does not depend on the
module's locally parsed gates at all; and when it has no instances, the
flat list is exactly the sanitized copy of the local gates. -/
theorem c3_local_gates_only_without_instances :
    (∀ (fuel : Nat) (m : Module) (ms : List (String × Module)) (gs : List Gate),
       m.instances ≠ [] →
       flattenModuleGates fuel m ms = flattenModuleGates fuel { m with gates := gs } ms) ∧
    (∀ (fuel : Nat) (m : Module) (ms : List (String × Module)),
       m.instances = [] →
       flattenModuleGates (fuel + 1) m ms = some (m.gates.map sanitizeGate)) := by
  constructor
  · intro fuel m ms gs h
    cases fuel with
    | zero => rfl
    | succ f =>
      have hne : m.instances.isEmpty = false := by
        cases hmi : m.instances with
        | nil => exact absurd hmi h
        | cons a l => rfl
      simp only [flattenModuleGates, hne, Bool.false_eq_true, if_false]
  · intro fuel m ms h
    simp [flattenModuleGates, h, flattenInstances]

/-- Witness for C3 at a concrete one-instance module and a concrete
instance-free module. -/
theorem c3_witness :
    (({ name := "t", instances := [⟨"S", "L", []⟩] } : Module).instances ≠ [] ∧
     flattenModuleGates 1 { name := "t", instances := [⟨"S", "L", []⟩] } [] =
       flattenModuleGates 1
         { name := "t", instances := [⟨"S", "L", []⟩],
           gates := [⟨.AND, ["a", "b"], "y", ""⟩] } []) ∧
    (({ name := "u", gates := [⟨.AND, ["a[0]", "b"], "y", ""⟩] } : Module).instances = [] ∧
     flattenModuleGates 1 { name := "u", gates := [⟨.AND, ["a[0]", "b"], "y", ""⟩] } [] =
       some ([⟨.AND, ["a[0]", "b"], "y", ""⟩].map sanitizeGate)) :=
  ⟨⟨by decide,
    c3_local_gates_only_without_instances.1 1
      { name := "t", instances := [⟨"S", "L", []⟩] } [] [⟨.AND, ["a", "b"], "y", ""⟩]
      (by decide)⟩,
   ⟨rfl,
    c3_local_gates_only_without_instances.2 0
      { name := "u", gates := [⟨.AND, ["a[0]", "b"], "y", ""⟩] } [] rfl⟩⟩

/-! ## Claim C2: port substitution during flattening -/

/-- Counterexample to C2: the code substitutes through the instantiation's
connection map even for names that are not formal ports of the submodule
(`sub_ports_in`/`sub_ports_out` are computed on source lines 544-545 but
never used), so the gate input `foo` becomes `x` where the claim requires
`L_foo`. -/
theorem c2_counterexample : ¬ c2Claim := by
  intro h
  exact absurd
    (h 1 [("S", c2Sub)] c2Parent ⟨"S", "L", [("foo", "x")]⟩ c2Sub
      [⟨.NOT, ["foo"], "bar", "g"⟩] rfl rfl (by decide) (by decide) (by decide))
    (by decide)

/-- Claim C2 as amended: substitution is keyed on the instantiation's
connection map, not on the submodule's declared ports — every net (input or
output) of an inlined gate that appears as a connection name is replaced by
the mapped sanitized actual net, and every other net (including any
unconnected formal port) is renamed to `<instance>_<net>`; the instance tag
is mangled to `<instance>_<tag>`.  This is exactly `transformInstGate`. -/
theorem c2_amended_connection_keyed_renaming :
    ∀ (fuel : Nat) (ms : List (String × Module)) (parent : Module)
      (inst : ModuleInstance) (sub : Module) (subFlat : List Gate),
      parent.instances = [inst] → parent.gates = [] →
      inst.moduleName ≠ "UNIT_DFFE" →
      lookupAssoc ms inst.moduleName = some sub →
      flattenModuleGates fuel sub ms = some subFlat →
      flattenModuleGates (fuel + 1) parent ms = some (subFlat.map (transformInstGate inst)) := by
  intro fuel ms parent inst sub subFlat hinst hgates hvirt hlook hflat
  simp [flattenModuleGates, hinst, flattenInstances, flattenInstStep, if_neg hvirt, hlook, hflat]

/-- Witness for C2's amended theorem at the concrete counterexample
instantiation. -/
theorem c2_amended_witness :
    c2Parent.instances = [⟨"S", "L", [("foo", "x")]⟩] ∧
    c2Parent.gates = [] ∧
    lookupAssoc [("S", c2Sub)] "S" = some c2Sub ∧
    flattenModuleGates 1 c2Sub [("S", c2Sub)] = some [⟨.NOT, ["foo"], "bar", "g"⟩] ∧
    flattenModuleGates 2 c2Parent [("S", c2Sub)] =
      some ([⟨.NOT, ["foo"], "bar", "g"⟩].map (transformInstGate ⟨"S", "L", [("foo", "x")]⟩)) :=
  ⟨rfl, rfl, by decide, by decide,
   c2_amended_connection_keyed_renaming 1 [("S", c2Sub)] c2Parent
     ⟨"S", "L", [("foo", "x")]⟩ c2Sub [⟨.NOT, ["foo"], "bar", "g"⟩]
     rfl rfl (by decide) (by decide) (by decide)⟩

/-! ## Claim C9: identifier aliases and ALIAS-only packing -/

/-- Claim C9: an assign whose (normalized) right-hand side matches `^\w+$`
parses to exactly one ALIAS gate from the RHS net to the LHS net with the
counter untouched; and packing a non-empty gate list consisting solely of
ALIAS gates produces no real IC — only the synthetic `ALIAS` pseudo-IC
carrying the `(dst, src)` pairs. -/
theorem c9_alias_parse_and_packing :
    (∀ (line : String) (c : Nat) (out rhs : List Char),
       assignSplit line = some (out, rhs) → isWordB rhs = true →
       parseAssignStatement line c =
         some ([⟨.ALIAS, [String.mk rhs], String.mk out, ""⟩], c)) ∧
    (∀ gates : List Gate, gates ≠ [] → (∀ g ∈ gates, g.gateType = .ALIAS) →
       mapGatesToICs gates =
         [{ partNumber := "ALIAS", package := "N/A", instanceId := "ALIAS", gates := [],
            pinAssignments := (passLinks gates).foldl upsertAssoc [] }]) := by
  constructor
  · intro line c out rhs hsplit hword
    simp only [parseAssignStatement, hsplit, hword, if_true]
  · intro gates hne hall
    have hgr : gateGroups gates = [] := by
      have key : ∀ (gs : List Gate) (gr : List (GateType × List Gate)),
          (∀ g ∈ gs, g.gateType = .ALIAS) →
          gs.foldl (fun gr g => if g.gateType = .ALIAS then gr else addGateToGroups gr g) gr = gr := by
        intro gs
        induction gs with
        | nil => intro gr _; rfl
        | cons g rest ih =>
          intro gr hall2
          simp only [List.foldl_cons, hall2 g (List.mem_cons_self g rest), if_true]
          exact ih gr (fun x hx => hall2 x (List.mem_cons_of_mem g hx))
      exact key gates [] hall
    have hlinks : (passLinks gates).isEmpty = false := by
      cases gates with
      | nil => exact absurd rfl hne
      | cons g rest =>
        have hg : g.gateType = .ALIAS := hall g (List.mem_cons_self g rest)
        have key : ∀ (gs : List Gate) (acc : List (String × String)), acc ≠ [] →
            gs.foldl (fun acc2 g2 =>
              if g2.gateType = .ALIAS then acc2 ++ [(g2.output, g2.inputs.headD "")] else acc2)
              acc ≠ [] := by
          intro gs
          induction gs with
          | nil => intro acc h; exact h
          | cons x xs ih =>
            intro acc h
            simp only [List.foldl_cons]
            by_cases hx : x.gateType = .ALIAS
            · simp only [hx, if_true]
              exact ih _ (by simp)
            · simp only [hx, if_false]
              exact ih _ h
        have h2 : passLinks (g :: rest) ≠ [] := by
          unfold passLinks
          simp only [List.foldl_cons, hg, if_true, List.nil_append]
          exact key rest [(g.output, g.inputs.headD "")] (by simp)
        simpa [List.isEmpty_iff] using h2
    simp [mapGatesToICs, hgr, allocICs, hlinks]

/-- Witness for C9 at `assign y = a;` and the singleton ALIAS gate list it
produces. -/
theorem c9_witness :
    assignSplit "assign y = a;" = some ("y".toList, "a".toList) ∧
    isWordB "a".toList = true ∧
    parseAssignStatement "assign y = a;" 3 =
      some ([⟨.ALIAS, [String.mk "a".toList], String.mk "y".toList, ""⟩], 3) ∧
    mapGatesToICs [⟨.ALIAS, ["a"], "y", ""⟩] =
      [{ partNumber := "ALIAS", package := "N/A", instanceId := "ALIAS", gates := [],
         pinAssignments := (passLinks [⟨.ALIAS, ["a"], "y", ""⟩]).foldl upsertAssoc [] }] :=
  ⟨by decide, by decide,
   c9_alias_parse_and_packing.1 "assign y = a;" 3 "y".toList "a".toList (by decide) (by decide),
   c9_alias_parse_and_packing.2 [⟨.ALIAS, ["a"], "y", ""⟩] (by decide)
     (by intro g hg; simp only [List.mem_singleton] at hg; rw [hg])⟩

/-! ## Claim C4: malformed expressions -/

/-- Counterexample to C4: the expression `a &` ends in an operator, and
`_rpn_to_ast` pops an operand from an empty stack — an uncaught
`IndexError` (`none`), not an empty gate list. -/
theorem c4_counterexample : ¬ c4Claim := by
  intro h
  obtain ⟨c', hc⟩ :=
    h "a &".toList "y" 0 ⟨["a", "&"], "&", by decide, by decide, by decide⟩
  rw [show parseBooleanExprToGates "a &".toList "y" 0 = none from by decide] at hc
  exact Option.noConfusion hc

/-- Claim C4 as amended: an expression reducing to an empty RPN (empty
input, bare parenthesis groups such as `()`) compiles to an empty gate list
without an exception; an unbalanced parenthesis by itself neither raises
nor empties the output — `(a & b` still compiles to its AND gate; but an
expression with a trailing operator (a missing operand, e.g. `a &`)
underflows the AST stack and raises an uncaught IndexError instead of
returning an empty gate list. -/
theorem c4_amended_malformed_behavior :
    (∀ (expr : List Char) (target : String) (c : Nat) (toks : List String),
       tokenizeChars (rewriteTernaryToBool expr) = some toks →
       shuntingYard toks = [] →
       parseBooleanExprToGates expr target c = some ([], c)) ∧
    parseBooleanExprToGates "()".toList "y" 0 = some ([], 0) ∧
    parseBooleanExprToGates "(a & b".toList "y" 0 =
      some ([⟨.AND, ["a", "b"], "y", "AND_2_y"⟩], 2) ∧
    parseBooleanExprToGates "a &".toList "y" 0 = none := by
  refine ⟨?_, by decide, by decide, by decide⟩
  intro expr target c toks htok hsy
  simp [parseBooleanExprToGates, htok, hsy]

/-- Witness for C4's amended theorem: the universal empty-RPN conjunct
applied at the concrete expression `()`. -/
theorem c4_amended_witness :
    tokenizeChars (rewriteTernaryToBool "()".toList) = some ["(", ")"] ∧
    shuntingYard ["(", ")"] = [] ∧
    parseBooleanExprToGates "()".toList "z" 7 = some ([], 7) :=
  ⟨by decide, by decide,
   c4_amended_malformed_behavior.1 "()".toList "z" 7 ["(", ")"] (by decide) (by decide)⟩

/-! ## Claim C7: the single-driver property -/

/-- Counterexample to C7: the source `assign y = a & b; assign y = c | d;`
parses without complaint into two gates that both drive `y`, and no
single-driver check exists anywhere in the pipeline. -/
theorem c7_counterexample : ¬ c7Claim := by
  intro h
  exact absurd
    (h ["assign y = a & b;", "assign y = c | d;"]
       [⟨.AND, ["a", "b"], "y", "AND_2_y"⟩, ⟨.OR, ["c", "d"], "y", "OR_2_y"⟩] 4 1
       { name := "m",
         gates := [⟨.AND, ["a", "b"], "y", "AND_2_y"⟩, ⟨.OR, ["c", "d"], "y", "OR_2_y"⟩] }
       []
       [⟨.AND, ["a", "b"], "y", "AND_2_y"⟩, ⟨.OR, ["c", "d"], "y", "OR_2_y"⟩]
       (by decide) rfl rfl (by decide))
    (by decide)

/-! ## Claim C8: emitted nets -/

/-- Counterexample to C8: for the alias-only module the emitted net list is
just `["y"]` — the `VCC`, `GND` and `GND_UNUSED` nets are all guarded by
non-emptiness checks that fail when no real IC exists. -/
theorem c8_counterexample : ¬ c8Claim := by
  intro h
  exact absurd (h 1 c8Mod [] [⟨.ALIAS, ["a"], "y", ""⟩] (by decide)).1 (by decide)

/-! ## Claim C6: gate arity invariant -/

/-- A successful association-list lookup is a membership. -/
theorem lookupAssoc_mem {α : Type} (l : List (String × α)) (k : String) (v : α)
    (h : lookupAssoc l k = some v) : (k, v) ∈ l := by
  induction l with
  | nil => exact Option.noConfusion h
  | cons p rest ih =>
    rcases p with ⟨k', v'⟩
    by_cases hk : k' = k
    · simp only [lookupAssoc, if_pos hk] at h
      obtain h1 := Option.some.inj h
      subst hk; rw [h1]; exact List.mem_cons_self _ _
    · simp only [lookupAssoc, if_neg hk] at h
      exact List.mem_cons_of_mem _ (ih h)

/-- `_ast_to_gates` only ever appends to its accumulator: the run on `acc`
equals the run on `[]` with `acc` prepended, and the returned net and
counter do not depend on the accumulator. -/
theorem astToGates_acc (ast : BExpr) : ∀ (target : String) (acc : List Gate) (c : Nat),
    astToGates ast target acc c =
      ((astToGates ast target [] c).1, acc ++ (astToGates ast target [] c).2.1,
       (astToGates ast target [] c).2.2) := by
  induction ast with
  | id s => intro target acc c; simp [astToGates]
  | notE a ih =>
    intro target acc c
    simp only [astToGates, newTemp]
    rcases ha : astToGates a (tempName "n" (c + 1)) [] (c + 1) with ⟨s1, l1, k1⟩
    have ha' : astToGates a (tempName "n" (c + 1)) acc (c + 1) = (s1, acc ++ l1, k1) := by
      rw [ih, ha]
    rw [ha']
    simp
  | andE a b iha ihb =>
    intro target acc c
    simp only [astToGates, newTemp]
    rcases ha : astToGates a (tempName "l" (c + 1)) [] (c + 1) with ⟨s1, l1, k1⟩
    have ha' : astToGates a (tempName "l" (c + 1)) acc (c + 1) = (s1, acc ++ l1, k1) := by
      rw [iha, ha]
    rw [ha']
    dsimp only
    rcases hb : astToGates b (tempName "r" (k1 + 1)) [] (k1 + 1) with ⟨s2, l2, k2⟩
    have hb1 : astToGates b (tempName "r" (k1 + 1)) (acc ++ l1) (k1 + 1) =
        (s2, (acc ++ l1) ++ l2, k2) := by rw [ihb, hb]
    have hb2 : astToGates b (tempName "r" (k1 + 1)) l1 (k1 + 1) = (s2, l1 ++ l2, k2) := by
      rw [ihb, hb]
    rw [hb1, hb2]
    simp
  | xorE a b iha ihb =>
    intro target acc c
    simp only [astToGates, newTemp]
    rcases ha : astToGates a (tempName "l" (c + 1)) [] (c + 1) with ⟨s1, l1, k1⟩
    have ha' : astToGates a (tempName "l" (c + 1)) acc (c + 1) = (s1, acc ++ l1, k1) := by
      rw [iha, ha]
    rw [ha']
    dsimp only
    rcases hb : astToGates b (tempName "r" (k1 + 1)) [] (k1 + 1) with ⟨s2, l2, k2⟩
    have hb1 : astToGates b (tempName "r" (k1 + 1)) (acc ++ l1) (k1 + 1) =
        (s2, (acc ++ l1) ++ l2, k2) := by rw [ihb, hb]
    have hb2 : astToGates b (tempName "r" (k1 + 1)) l1 (k1 + 1) = (s2, l1 ++ l2, k2) := by
      rw [ihb, hb]
    rw [hb1, hb2]
    simp
  | orE a b iha ihb =>
    intro target acc c
    simp only [astToGates, newTemp]
    rcases ha : astToGates a (tempName "l" (c + 1)) [] (c + 1) with ⟨s1, l1, k1⟩
    have ha' : astToGates a (tempName "l" (c + 1)) acc (c + 1) = (s1, acc ++ l1, k1) := by
      rw [iha, ha]
    rw [ha']
    dsimp only
    rcases hb : astToGates b (tempName "r" (k1 + 1)) [] (k1 + 1) with ⟨s2, l2, k2⟩
    have hb1 : astToGates b (tempName "r" (k1 + 1)) (acc ++ l1) (k1 + 1) =
        (s2, (acc ++ l1) ++ l2, k2) := by rw [ihb, hb]
    have hb2 : astToGates b (tempName "r" (k1 + 1)) l1 (k1 + 1) = (s2, l1 ++ l2, k2) := by
      rw [ihb, hb]
    rw [hb1, hb2]
    simp

/-- Every gate emitted by the AST lowering satisfies the arity invariant
(given that the gates already in the accumulator do). -/
theorem astToGates_arity (ast : BExpr) : ∀ (target : String) (acc : List Gate) (c : Nat),
    (∀ g ∈ acc, arityOk g = true) →
    ∀ g ∈ (astToGates ast target acc c).2.1, arityOk g = true := by
  induction ast with
  | id s => intro target acc c hacc g hg; exact hacc g hg
  | notE a ih =>
    intro target acc c hacc g hg
    simp only [astToGates, newTemp] at hg
    rcases ha : astToGates a (tempName "n" (c + 1)) acc (c + 1) with ⟨s1, l1, k1⟩
    rw [ha] at hg
    dsimp only at hg
    simp only [List.mem_append, List.mem_singleton] at hg
    rcases hg with hg | hg
    · have h3 := ih (tempName "n" (c + 1)) acc (c + 1) hacc g
      rw [ha] at h3
      exact h3 hg
    · subst hg; rfl
  | andE a b iha ihb =>
    intro target acc c hacc g hg
    simp only [astToGates, newTemp] at hg
    rcases ha : astToGates a (tempName "l" (c + 1)) acc (c + 1) with ⟨s1, l1, k1⟩
    rw [ha] at hg
    dsimp only at hg
    have hl1 : ∀ x ∈ l1, arityOk x = true := by
      intro x hx
      have h2 := iha (tempName "l" (c + 1)) acc (c + 1) hacc x
      rw [ha] at h2
      exact h2 hx
    rcases hb : astToGates b (tempName "r" (k1 + 1)) l1 (k1 + 1) with ⟨s2, l2, k2⟩
    rw [hb] at hg
    dsimp only at hg
    simp only [List.mem_append, List.mem_singleton] at hg
    rcases hg with hg | hg
    · have h3 := ihb (tempName "r" (k1 + 1)) l1 (k1 + 1) hl1 g
      rw [hb] at h3
      exact h3 hg
    · subst hg; rfl
  | xorE a b iha ihb =>
    intro target acc c hacc g hg
    simp only [astToGates, newTemp] at hg
    rcases ha : astToGates a (tempName "l" (c + 1)) acc (c + 1) with ⟨s1, l1, k1⟩
    rw [ha] at hg
    dsimp only at hg
    have hl1 : ∀ x ∈ l1, arityOk x = true := by
      intro x hx
      have h2 := iha (tempName "l" (c + 1)) acc (c + 1) hacc x
      rw [ha] at h2
      exact h2 hx
    rcases hb : astToGates b (tempName "r" (k1 + 1)) l1 (k1 + 1) with ⟨s2, l2, k2⟩
    rw [hb] at hg
    dsimp only at hg
    simp only [List.mem_append, List.mem_singleton] at hg
    rcases hg with hg | hg
    · have h3 := ihb (tempName "r" (k1 + 1)) l1 (k1 + 1) hl1 g
      rw [hb] at h3
      exact h3 hg
    · subst hg; rfl
  | orE a b iha ihb =>
    intro target acc c hacc g hg
    simp only [astToGates, newTemp] at hg
    rcases ha : astToGates a (tempName "l" (c + 1)) acc (c + 1) with ⟨s1, l1, k1⟩
    rw [ha] at hg
    dsimp only at hg
    have hl1 : ∀ x ∈ l1, arityOk x = true := by
      intro x hx
      have h2 := iha (tempName "l" (c + 1)) acc (c + 1) hacc x
      rw [ha] at h2
      exact h2 hx
    rcases hb : astToGates b (tempName "r" (k1 + 1)) l1 (k1 + 1) with ⟨s2, l2, k2⟩
    rw [hb] at hg
    dsimp only at hg
    simp only [List.mem_append, List.mem_singleton] at hg
    rcases hg with hg | hg
    · have h3 := ihb (tempName "r" (k1 + 1)) l1 (k1 + 1) hl1 g
      rw [hb] at h3
      exact h3 hg
    · subst hg; rfl

/-- Every gate returned by the expression compiler satisfies the arity
invariant. -/
theorem parseBooleanExprToGates_arity (expr : List Char) (target : String) (c : Nat)
    (gs : List Gate) (c' : Nat) (h : parseBooleanExprToGates expr target c = some (gs, c')) :
    ∀ g ∈ gs, arityOk g = true := by
  unfold parseBooleanExprToGates at h
  rcases htok : tokenizeChars (rewriteTernaryToBool expr) with _ | toks
  · rw [htok] at h; exact Option.noConfusion h
  rw [htok] at h
  dsimp only at h
  by_cases hrpn : (shuntingYard toks).isEmpty
  · rw [if_pos hrpn] at h
    simp only [Option.some.injEq, Prod.mk.injEq] at h
    obtain ⟨h1, _⟩ := h
    intro g hg; rw [← h1] at hg; simp at hg
  rw [if_neg hrpn] at h
  rcases hast : rpnToAst (shuntingYard toks) with _ | (_ | ast)
  · rw [hast] at h; exact Option.noConfusion h
  · rw [hast] at h
    dsimp only at h
    simp only [Option.some.injEq, Prod.mk.injEq] at h
    obtain ⟨h1, _⟩ := h
    intro g hg; rw [← h1] at hg; simp at hg
  · rw [hast] at h
    dsimp only at h
    simp only [Option.some.injEq, Prod.mk.injEq] at h
    obtain ⟨h1, _⟩ := h
    intro g hg
    rw [← h1] at hg
    exact astToGates_arity ast target [] c (by intro x hx; simp at hx) g hg

/-- Arity invariant for the gates of one parsed assign statement. -/
theorem parseAssignStatement_arity (line : String) (c : Nat) (gs : List Gate) (c' : Nat)
    (h : parseAssignStatement line c = some (gs, c')) : ∀ g ∈ gs, arityOk g = true := by
  simp only [parseAssignStatement] at h
  rcases hsplit : assignSplit line with _ | ⟨out, rhs⟩
  · rw [hsplit] at h
    simp only [Option.some.injEq, Prod.mk.injEq] at h
    obtain ⟨h1, _⟩ := h
    intro g hg; rw [← h1] at hg; simp at hg
  rw [hsplit] at h
  simp only at h
  by_cases hw : isWordB rhs
  · rw [if_pos hw] at h
    simp only [Option.some.injEq, Prod.mk.injEq] at h
    obtain ⟨h1, _⟩ := h
    intro g hg
    rw [← h1] at hg
    simp only [List.mem_singleton] at hg
    subst hg; rfl
  · rw [if_neg hw] at h
    exact parseBooleanExprToGates_arity rhs (String.mk out) c gs c' h

/-- The renaming applied during inlining does not change a gate's kind or
its number of inputs, so it preserves the arity invariant. -/
theorem transformInstGate_arity (inst : ModuleInstance) (g : Gate)
    (h : arityOk g = true) : arityOk (transformInstGate inst g) = true := by
  unfold arityOk transformInstGate at *
  simpa using h

/-- Sanitizing a copied local gate preserves the arity invariant. -/
theorem sanitizeGate_arity (g : Gate) (h : arityOk g = true) :
    arityOk (sanitizeGate g) = true := by
  unfold arityOk sanitizeGate at *
  simpa using h

/-- The virtual `UNIT_DFFE` primitive emits only two-input DFF gates. -/
theorem unitDffeGates_arity (inst : ModuleInstance) :
    ∀ g ∈ unitDffeGates inst, arityOk g = true := by
  intro g hg
  simp only [unitDffeGates] at hg
  rcases hd : lookupAssoc inst.connections
      (if containsKey inst.connections "D" then "D" else "d") with _ | d <;>
    rw [hd] at hg
  · simp at hg
  rcases hc : lookupAssoc inst.connections
      (if containsKey inst.connections "CLK" then "CLK" else "clk") with _ | clk <;>
    rw [hc] at hg
  · simp at hg
  rcases hq : lookupAssoc inst.connections
      (if containsKey inst.connections "Q" then "Q" else "q") with _ | q <;>
    rw [hq] at hg
  · simp at hg
  simp only [List.mem_singleton] at hg
  subst hg; rfl

/-- Every gate in the flat list satisfies the arity invariant, provided the
module's own gates and those of every module in the table do. -/
theorem flattenModuleGates_arity :
    ∀ (fuel : Nat) (m : Module) (ms : List (String × Module)) (flat : List Gate),
      (∀ g ∈ m.gates, arityOk g = true) →
      (∀ p ∈ ms, ∀ g ∈ p.2.gates, arityOk g = true) →
      flattenModuleGates fuel m ms = some flat →
      ∀ g ∈ flat, arityOk g = true := by
  intro fuel
  induction fuel with
  | zero => intro m ms flat _ _ h; exact Option.noConfusion h
  | succ f ih =>
    have hStep : ∀ (ms : List (String × Module)) (inst : ModuleInstance) (gs : List Gate),
        (∀ p ∈ ms, ∀ g ∈ p.2.gates, arityOk g = true) →
        flattenInstStep (fun sub ms' => flattenModuleGates f sub ms') ms inst = some gs →
        ∀ g ∈ gs, arityOk g = true := by
      intro ms inst gs hms h g hg
      unfold flattenInstStep at h
      by_cases hv : inst.moduleName = "UNIT_DFFE"
      · rw [if_pos hv] at h
        simp only [Option.some.injEq] at h
        rw [← h] at hg
        exact unitDffeGates_arity inst g hg
      rw [if_neg hv] at h
      rcases hlook : lookupAssoc ms inst.moduleName with _ | sub
      · rw [hlook] at h
        dsimp only at h
        simp only [Option.some.injEq] at h
        rw [← h] at hg; simp at hg
      rw [hlook] at h
      dsimp only at h
      rcases hflat : flattenModuleGates f sub ms with _ | subGates
      · rw [hflat] at h; exact Option.noConfusion h
      rw [hflat] at h
      dsimp only at h
      simp only [Option.some.injEq] at h
      rw [← h] at hg
      obtain ⟨g0, hg0, hg0t⟩ := List.mem_map.mp hg
      have hsubOk : ∀ x ∈ sub.gates, arityOk x = true :=
        fun x hx => hms (inst.moduleName, sub) (lookupAssoc_mem ms _ _ hlook) x hx
      rw [← hg0t]
      exact transformInstGate_arity inst g0 (ih sub ms subGates hsubOk hms hflat g0 hg0)
    have hInst : ∀ (insts : List ModuleInstance) (ms : List (String × Module)) (gs : List Gate),
        (∀ p ∈ ms, ∀ g ∈ p.2.gates, arityOk g = true) →
        flattenInstances (fun sub ms' => flattenModuleGates f sub ms') insts ms = some gs →
        ∀ g ∈ gs, arityOk g = true := by
      intro insts
      induction insts with
      | nil =>
        intro ms gs _ h g hg
        simp only [flattenInstances, Option.some.injEq] at h
        rw [← h] at hg; simp at hg
      | cons inst rest ihr =>
        intro ms gs hms h g hg
        simp only [flattenInstances] at h
        rcases hhere : flattenInstStep (fun sub ms' => flattenModuleGates f sub ms') ms inst
          with _ | hereGates
        · rw [hhere] at h; exact Option.noConfusion h
        rw [hhere] at h
        rcases hrest : flattenInstances (fun sub ms' => flattenModuleGates f sub ms') rest ms
          with _ | restGates
        · rw [hrest] at h; exact Option.noConfusion h
        rw [hrest] at h
        simp only [Option.some.injEq] at h
        rw [← h] at hg
        rcases List.mem_append.mp hg with hmem | hmem
        · exact hStep ms inst hereGates hms hhere g hmem
        · exact ihr ms restGates hms hrest g hmem
    intro m ms flat hm hms h
    simp only [flattenModuleGates] at h
    rcases hig : flattenInstances (fun sub ms' => flattenModuleGates f sub ms') m.instances ms
      with _ | instGates
    · rw [hig] at h; exact Option.noConfusion h
    rw [hig] at h
    simp only [Option.some.injEq] at h
    intro g hg
    rw [← h] at hg
    rcases List.mem_append.mp hg with hmem | hmem
    · by_cases he : m.instances.isEmpty
      · rw [if_pos he] at hmem
        obtain ⟨g0, hg0, hg0t⟩ := List.mem_map.mp hmem
        rw [← hg0t]
        exact sanitizeGate_arity g0 (hm g0 hg0)
      · rw [if_neg he] at hmem; simp at hmem
    · exact hInst m.instances ms instGates hms hig g hmem

/-- Claim C6: every gate ever constructed — by the assign-statement parser
(aliases and compiled expressions), by the always-block register lowering,
and by the flattener (given well-formed gates to inline) — satisfies the
arity invariant; DFF gates are built with inputs in the order (data,
clock). -/
theorem c6_arity_invariant :
    (∀ (line : String) (c : Nat) (gs : List Gate) (c' : Nat),
       parseAssignStatement line c = some (gs, c') → ∀ g ∈ gs, arityOk g = true) ∧
    (∀ d clk q : String,
       mkDffGate d clk q =
         ⟨.DFF, [sanitizeSignalName d, sanitizeSignalName clk], sanitizeSignalName q, ""⟩ ∧
       arityOk (mkDffGate d clk q) = true) ∧
    (∀ (fuel : Nat) (m : Module) (ms : List (String × Module)) (flat : List Gate),
       (∀ g ∈ m.gates, arityOk g = true) →
       (∀ p ∈ ms, ∀ g ∈ p.2.gates, arityOk g = true) →
       flattenModuleGates fuel m ms = some flat →
       ∀ g ∈ flat, arityOk g = true) :=
  ⟨parseAssignStatement_arity, fun _ _ _ => ⟨rfl, rfl⟩, flattenModuleGates_arity⟩

/-- Witness for C6 at a parsed sum-of-products assign, a register lowering,
and a concrete one-instance flatten. -/
theorem c6_witness :
    (parseAssignStatement "assign co = (a&b)|(cin&(a^b));" 0 = some (c1Gates, 8) ∧
     ∀ g ∈ c1Gates, arityOk g = true) ∧
    arityOk (mkDffGate "d" "clk" "q") = true ∧
    (flattenModuleGates 2 c2Parent [("S", c2Sub)] =
       some [⟨.NOT, ["x"], "L_bar", "L_g"⟩] ∧
     ∀ g ∈ [(⟨.NOT, ["x"], "L_bar", "L_g"⟩ : Gate)], arityOk g = true) :=
  ⟨⟨by decide,
    c6_arity_invariant.1 "assign co = (a&b)|(cin&(a^b));" 0 c1Gates 8 (by decide)⟩,
   (c6_arity_invariant.2.1 "d" "clk" "q").2,
   ⟨by decide,
    c6_arity_invariant.2.2 2 c2Parent [("S", c2Sub)] [⟨.NOT, ["x"], "L_bar", "L_g"⟩]
      (by intro g hg; simp [c2Parent] at hg) (by decide) (by decide)⟩⟩

/-! ## Claim C5: the packing formula -/

theorem countPart_append (a b : List ICInstance) (p : String) :
    countPart (a ++ b) p = countPart a p + countPart b p := by
  simp [countPart, List.filter_append]

theorem allocForGroup_parts (mp : ICMapping) (l : List Gate) (n : Nat) :
    ∀ ic ∈ allocForGroup mp l n, ic.partNumber = mp.partNumber := by
  intro ic hic
  obtain ⟨i, _, hi⟩ := List.mem_map.mp hic
  rw [← hi]; rfl

theorem allocForGroup_length (mp : ICMapping) (l : List Gate) (n : Nat) :
    (allocForGroup mp l n).length = ceilDiv l.length mp.gatesPerIC := by
  simp [allocForGroup]

theorem countPart_allocForGroup (mp : ICMapping) (l : List Gate) (n : Nat) (p : String) :
    countPart (allocForGroup mp l n) p =
      if mp.partNumber = p then ceilDiv l.length mp.gatesPerIC else 0 := by
  by_cases hp : mp.partNumber = p
  · rw [if_pos hp]
    have hfil : (allocForGroup mp l n).filter (fun ic => ic.partNumber = p) =
        allocForGroup mp l n := by
      rw [List.filter_eq_self]
      intro ic hic
      have h2 := allocForGroup_parts mp l n ic hic
      simp [h2, hp]
    rw [countPart, hfil, allocForGroup_length]
  · rw [if_neg hp]
    have hfil : (allocForGroup mp l n).filter (fun ic => ic.partNumber = p) = [] := by
      rw [List.filter_eq_nil_iff]
      intro ic hic
      have h2 := allocForGroup_parts mp l n ic hic
      simp [h2, hp]
    rw [countPart, hfil]
    rfl

theorem ceilDiv_zero (c : Nat) : ceilDiv 0 c = 0 := by
  unfold ceilDiv
  cases c with
  | zero => rfl
  | succ k =>
    simp only [Nat.zero_add]
    exact Nat.div_eq_of_lt (by omega)

theorem countPart_allocICs_absent (p : String) :
    ∀ (groups : List (GateType × List Gate)) (n : Nat),
      (∀ kl ∈ groups, ∀ mp, icMapping kl.1 = some mp → mp.partNumber ≠ p) →
      countPart (allocICs groups n) p = 0 := by
  intro groups
  induction groups with
  | nil => intro n _; simp [allocICs, countPart]
  | cons kl rest ih =>
    intro n h
    rcases kl with ⟨k, l⟩
    simp only [allocICs]
    rcases hm : icMapping k with _ | mp
    · exact ih n (fun x hx => h x (List.mem_cons_of_mem _ hx))
    · rw [countPart_append, countPart_allocForGroup]
      have hne : mp.partNumber ≠ p := h (k, l) (List.mem_cons_self _ _) mp hm
      rw [if_neg hne]
      simpa using ih _ (fun x hx => h x (List.mem_cons_of_mem _ hx))

theorem countPart_allocICs (k0 : GateType) (mp0 : ICMapping) (p : String)
    (h0 : icMapping k0 = some mp0) (hp : mp0.partNumber = p)
    (huniq : ∀ k mp, icMapping k = some mp → mp.partNumber = p → k = k0) :
    ∀ (groups : List (GateType × List Gate)) (n : Nat),
      (groupKeys groups).Nodup →
      countPart (allocICs groups n) p = ceilDiv (lookupGroup groups k0).length mp0.gatesPerIC := by
  intro groups
  induction groups with
  | nil => intro n _; simp [allocICs, countPart, lookupGroup, ceilDiv_zero]
  | cons kl rest ih =>
    intro n hnd
    rcases kl with ⟨k, l⟩
    have hnd2 : (k :: groupKeys rest).Nodup := hnd
    rcases List.nodup_cons.mp hnd2 with ⟨hknot, hnd'⟩
    simp only [allocICs]
    rcases hm : icMapping k with _ | mp
    · have hkk : k ≠ k0 := by
        intro he; rw [he, h0] at hm; exact Option.noConfusion hm
      rw [show lookupGroup ((k, l) :: rest) k0 = lookupGroup rest k0 from by
        simp [lookupGroup, hkk]]
      exact ih n hnd'
    · rw [countPart_append, countPart_allocForGroup]
      by_cases hkk : k = k0
      · subst hkk
        rw [h0] at hm
        obtain rfl := Option.some.inj hm
        rw [if_pos hp]
        have habs : countPart (allocICs rest (n + ceilDiv l.length mp0.gatesPerIC)) p = 0 := by
          apply countPart_allocICs_absent
          intro x hx mpx hmx hpx
          have hxk : x.1 = k := huniq x.1 mpx hmx hpx
          have hm2 : x.1 ∈ groupKeys rest := List.mem_map.mpr ⟨x, hx, rfl⟩
          rw [hxk] at hm2
          exact hknot hm2
        rw [habs, show lookupGroup ((k, l) :: rest) k = l from by simp [lookupGroup]]
        omega
      · have hne : mp.partNumber ≠ p := fun hpe => hkk (huniq k mp hm hpe)
        rw [if_neg hne,
          show lookupGroup ((k, l) :: rest) k0 = lookupGroup rest k0 from by
            simp [lookupGroup, hkk]]
        simpa using ih _ hnd'

theorem lookupGroup_addGate (g : Gate) (k : GateType) :
    ∀ gr : List (GateType × List Gate),
      lookupGroup (addGateToGroups gr g) k =
        if g.gateType = k then lookupGroup gr k ++ [g] else lookupGroup gr k := by
  intro gr
  induction gr with
  | nil =>
    by_cases hgk : g.gateType = k <;> simp [addGateToGroups, lookupGroup, hgk]
  | cons kl rest ih =>
    rcases kl with ⟨k', l⟩
    by_cases hk' : k' = g.gateType
    · simp only [addGateToGroups, if_pos hk']
      by_cases hkk : k' = k
      · have hgk : g.gateType = k := hk' ▸ hkk
        simp [lookupGroup, hkk, hgk]
      · have hgk : ¬ g.gateType = k := fun he => hkk (hk'.trans he)
        simp [lookupGroup, hkk, hgk]
    · simp only [addGateToGroups, if_neg hk']
      by_cases hkk : k' = k
      · have hgk : ¬ g.gateType = k := fun he => hk' (hkk.trans he.symm)
        simp [lookupGroup, hkk, hgk]
      · simp [lookupGroup, hkk, ih]

theorem lookupGroup_gateGroups (gates : List Gate) (k : GateType) (hk : k ≠ .ALIAS) :
    lookupGroup (gateGroups gates) k = gates.filter (fun g => g.gateType = k) := by
  have key : ∀ (gs : List Gate) (gr : List (GateType × List Gate)),
      lookupGroup
          (gs.foldl (fun gr g => if g.gateType = .ALIAS then gr else addGateToGroups gr g) gr) k =
        lookupGroup gr k ++ gs.filter (fun g => g.gateType = k) := by
    intro gs
    induction gs with
    | nil => intro gr; simp
    | cons g rest ih =>
      intro gr
      simp only [List.foldl_cons]
      by_cases hga : g.gateType = .ALIAS
      · have hgk : ¬ g.gateType = k := fun he => hk (he ▸ hga)
        rw [if_pos hga, ih, List.filter_cons, if_neg (by simpa using hgk)]
      · rw [if_neg hga, ih, lookupGroup_addGate, List.filter_cons]
        by_cases hgk : g.gateType = k
        · simp [hgk]
        · simp [hgk]
  exact key gates []

theorem addGate_keys_mem (g : Gate) (k : GateType) :
    ∀ gr : List (GateType × List Gate),
      k ∈ groupKeys (addGateToGroups gr g) ↔ k ∈ groupKeys gr ∨ k = g.gateType := by
  intro gr
  induction gr with
  | nil => simp [addGateToGroups, groupKeys, eq_comm]
  | cons kl rest ih =>
    rcases kl with ⟨k', l⟩
    by_cases hk' : k' = g.gateType
    · simp only [addGateToGroups, if_pos hk', groupKeys, List.map_cons, List.mem_cons]
      constructor
      · rintro (h | h)
        · exact Or.inl (Or.inl h)
        · exact Or.inl (Or.inr h)
      · rintro ((h | h) | h)
        · exact Or.inl h
        · exact Or.inr h
        · exact Or.inl (h.trans hk'.symm)
    · simp only [addGateToGroups, if_neg hk', groupKeys, List.map_cons, List.mem_cons] at ih ⊢
      rw [ih]
      tauto

theorem addGate_keys_nodup (g : Gate) :
    ∀ gr : List (GateType × List Gate),
      (groupKeys gr).Nodup → (groupKeys (addGateToGroups gr g)).Nodup := by
  intro gr
  induction gr with
  | nil => intro _; simp [addGateToGroups, groupKeys]
  | cons kl rest ih =>
    rcases kl with ⟨k', l⟩
    intro hnd
    have hnd2 : (k' :: groupKeys rest).Nodup := hnd
    rcases List.nodup_cons.mp hnd2 with ⟨hmem, hrest⟩
    simp only [addGateToGroups]
    by_cases hk' : k' = g.gateType
    · rw [if_pos hk']
      exact hnd2
    · rw [if_neg hk']
      show (k' :: groupKeys (addGateToGroups rest g)).Nodup
      refine List.nodup_cons.mpr ⟨?_, ih hrest⟩
      intro hcon
      rcases (addGate_keys_mem g k' rest).mp hcon with h | h
      · exact hmem h
      · exact hk' h

theorem gateGroups_keys_nodup (gates : List Gate) : (groupKeys (gateGroups gates)).Nodup := by
  have key : ∀ (gs : List Gate) (gr : List (GateType × List Gate)),
      (groupKeys gr).Nodup →
      (groupKeys
        (gs.foldl (fun gr g => if g.gateType = .ALIAS then gr else addGateToGroups gr g) gr)).Nodup := by
    intro gs
    induction gs with
    | nil => intro gr h; exact h
    | cons g rest ih =>
      intro gr h
      simp only [List.foldl_cons]
      by_cases hga : g.gateType = .ALIAS
      · rw [if_pos hga]; exact ih _ h
      · rw [if_neg hga]; exact ih _ (addGate_keys_nodup g gr h)
  exact key gates [] (by simp [groupKeys])

theorem passLinks_eq (gates : List Gate) :
    passLinks gates =
      (gates.filter (fun g => g.gateType = .ALIAS)).map
        (fun g => (g.output, g.inputs.headD "")) := by
  have key : ∀ (gs : List Gate) (acc : List (String × String)),
      gs.foldl (fun acc g =>
        if g.gateType = .ALIAS then acc ++ [(g.output, g.inputs.headD "")] else acc) acc =
      acc ++ (gs.filter (fun g => g.gateType = .ALIAS)).map
        (fun g => (g.output, g.inputs.headD "")) := by
    intro gs
    induction gs with
    | nil => intro acc; simp
    | cons g rest ih =>
      intro acc
      simp only [List.foldl_cons]
      by_cases hga : g.gateType = .ALIAS
      · rw [if_pos hga, ih, List.filter_cons, if_pos (by simpa using hga)]
        simp
      · rw [if_neg hga, ih, List.filter_cons, if_neg (by simpa using hga)]
  simpa [passLinks] using key gates []

theorem passLinks_isEmpty (gates : List Gate) :
    (passLinks gates).isEmpty = !gates.any (fun g => g.gateType == .ALIAS) := by
  rcases hany : gates.any (fun g => g.gateType == .ALIAS) with _ | _
  · have hfil : gates.filter (fun g => g.gateType = .ALIAS) = [] := by
      rw [List.filter_eq_nil_iff]
      intro g hg hcon
      have h2 : gates.any (fun g => g.gateType == .ALIAS) = true :=
        List.any_eq_true.mpr ⟨g, hg, by simpa using hcon⟩
      rw [hany] at h2
      exact Bool.noConfusion h2
    rw [passLinks_eq, hfil]
    rfl
  · obtain ⟨g, hg, hga⟩ := List.any_eq_true.mp hany
    have hmemf : g ∈ gates.filter (fun g => g.gateType = .ALIAS) :=
      List.mem_filter.mpr ⟨hg, by simpa using hga⟩
    rw [passLinks_eq]
    rcases hfil : gates.filter (fun g => g.gateType = .ALIAS) with _ | ⟨x, xs⟩
    · rw [hfil] at hmemf; simp at hmemf
    · rw [hfil]; rfl

theorem allocICs_mem :
    ∀ (groups : List (GateType × List Gate)) (n : Nat) (ic : ICInstance),
      ic ∈ allocICs groups n →
      ∃ k mp, icMapping k = some mp ∧ ic.partNumber = mp.partNumber := by
  intro groups
  induction groups with
  | nil => intro n ic h; simp [allocICs] at h
  | cons kl rest ih =>
    intro n ic h
    rcases kl with ⟨k, l⟩
    simp only [allocICs] at h
    rcases hm : icMapping k with _ | mp
    · rw [hm] at h; exact ih _ ic h
    · rw [hm] at h
      rcases List.mem_append.mp h with hmem | hmem
      · exact ⟨k, mp, hm, allocForGroup_parts mp l n ic hmem⟩
      · exact ih _ ic hmem

/-- The synthetic alias pseudo-IC segment contributes no IC of any real
part number. -/
theorem countPart_aliasSeg (gates : List Gate) (p : String) (hp : p ≠ "ALIAS") :
    countPart (if (passLinks gates).isEmpty then []
      else [{ partNumber := "ALIAS", package := "N/A", instanceId := "ALIAS", gates := [],
              pinAssignments := (passLinks gates).foldl upsertAssoc [] }]) p = 0 := by
  by_cases he : (passLinks gates).isEmpty
  · rw [if_pos he]; rfl
  · rw [if_neg he]
    have hne2 : ¬ (("ALIAS" : String) = p) := fun h => hp h.symm
    simp [countPart, List.filter_cons, hne2]

/-- The per-kind packing formula for the whole packer output. -/
theorem countPart_mapGatesToICs (gates : List Gate) (k0 : GateType) (mp0 : ICMapping)
    (h0 : icMapping k0 = some mp0)
    (huniq : ∀ k mp, icMapping k = some mp → mp.partNumber = mp0.partNumber → k = k0)
    (hk0 : k0 ≠ .ALIAS) (hne : mp0.partNumber ≠ "ALIAS") :
    countPart (mapGatesToICs gates) mp0.partNumber =
      ceilDiv (countType gates k0) mp0.gatesPerIC := by
  unfold mapGatesToICs
  rw [countPart_append, countPart_aliasSeg gates _ hne,
    countPart_allocICs k0 mp0 mp0.partNumber h0 rfl huniq (gateGroups gates) 0
      (gateGroups_keys_nodup gates),
    lookupGroup_gateGroups gates k0 hk0]
  rfl

/-- Claim C5: the packer allocates exactly `⌈N/C⌉` ICs for each gate kind
(AND/OR/XOR at 4 per 74HC08/74HC32/74HC86, NOT at 6 per 74HC04, DFF at 2
per 74HC74), ALIAS gates allocate no real IC (only the single pseudo-IC
when any alias exists), and no other part number ever appears. -/
theorem c5_packing_formula (gates : List Gate) :
    countPart (mapGatesToICs gates) "74HC08" = ceilDiv (countType gates .AND) 4 ∧
    countPart (mapGatesToICs gates) "74HC32" = ceilDiv (countType gates .OR) 4 ∧
    countPart (mapGatesToICs gates) "74HC86" = ceilDiv (countType gates .XOR) 4 ∧
    countPart (mapGatesToICs gates) "74HC04" = ceilDiv (countType gates .NOT) 6 ∧
    countPart (mapGatesToICs gates) "74HC74" = ceilDiv (countType gates .DFF) 2 ∧
    countPart (mapGatesToICs gates) "ALIAS" =
      (if gates.any (fun g => g.gateType == .ALIAS) then 1 else 0) ∧
    (∀ ic ∈ mapGatesToICs gates,
       ic.partNumber ∈ ["74HC08", "74HC32", "74HC86", "74HC04", "74HC74", "ALIAS"]) := by
  have hreal := countPart_mapGatesToICs gates
  have habs0 : ∀ kl ∈ gateGroups gates, ∀ mp, icMapping kl.1 = some mp →
      mp.partNumber ≠ "ALIAS" := by
    intro kl _ mp hm
    cases hk : kl.1 <;> rw [hk] at hm <;> simp only [icMapping] at hm
    all_goals first
      | exact Option.noConfusion hm
      | (obtain rfl := Option.some.inj hm; decide)
  refine ⟨?_, ?_, ?_, ?_, ?_, ?_, ?_⟩
  · refine hreal .AND _ rfl ?_ (by decide) (by decide)
    intro k mp h hp
    cases k <;> simp only [icMapping] at h
    all_goals first
      | rfl
      | exact Option.noConfusion h
      | (obtain rfl := Option.some.inj h; exact absurd hp (by decide))
  · refine hreal .OR _ rfl ?_ (by decide) (by decide)
    intro k mp h hp
    cases k <;> simp only [icMapping] at h
    all_goals first
      | rfl
      | exact Option.noConfusion h
      | (obtain rfl := Option.some.inj h; exact absurd hp (by decide))
  · refine hreal .XOR _ rfl ?_ (by decide) (by decide)
    intro k mp h hp
    cases k <;> simp only [icMapping] at h
    all_goals first
      | rfl
      | exact Option.noConfusion h
      | (obtain rfl := Option.some.inj h; exact absurd hp (by decide))
  · refine hreal .NOT _ rfl ?_ (by decide) (by decide)
    intro k mp h hp
    cases k <;> simp only [icMapping] at h
    all_goals first
      | rfl
      | exact Option.noConfusion h
      | (obtain rfl := Option.some.inj h; exact absurd hp (by decide))
  · refine hreal .DFF _ rfl ?_ (by decide) (by decide)
    intro k mp h hp
    cases k <;> simp only [icMapping] at h
    all_goals first
      | rfl
      | exact Option.noConfusion h
      | (obtain rfl := Option.some.inj h; exact absurd hp (by decide))
  · unfold mapGatesToICs
    rw [countPart_append, countPart_allocICs_absent "ALIAS" (gateGroups gates) 0 habs0,
      passLinks_isEmpty]
    rcases hany : gates.any (fun g => g.gateType == .ALIAS) with _ | _
    · simp [countPart]
    · simp [countPart, List.filter_cons]
  · intro ic hic
    unfold mapGatesToICs at hic
    rcases List.mem_append.mp hic with hmem | hmem
    · obtain ⟨k, mp, hm, hpart⟩ := allocICs_mem (gateGroups gates) 0 ic hmem
      rw [hpart]
      cases k <;> simp only [icMapping] at hm
      all_goals first
        | exact Option.noConfusion hm
        | (obtain rfl := Option.some.inj hm; decide)
    · by_cases he : (passLinks gates).isEmpty
      · rw [if_pos he] at hmem; simp at hmem
      · rw [if_neg he] at hmem
        simp only [List.mem_singleton] at hmem
        rw [hmem]
        simp
/-! ## Claim C8 (amended): helper lemmas about the resolver -/

theorem insertEndpoint_ne (l : List Endpoint) (e : Endpoint) : insertEndpoint l e ≠ [] := by
  unfold insertEndpoint
  by_cases hc : l.contains e
  · rw [if_pos hc]
    intro he
    rw [he] at hc
    simp [List.contains] at hc
  · rw [if_neg hc]
    simp

theorem pinFold_preserve_ne (icId netName : String) :
    ∀ (pas : List (String × String)) (acc : List Endpoint), acc ≠ [] →
      pas.foldl (fun acc2 pa =>
        if pa.2 = netName then insertEndpoint acc2 (icId, pa.1) else acc2) acc ≠ [] := by
  intro pas
  induction pas with
  | nil => intro acc h; exact h
  | cons pa rest ih =>
    intro acc h
    simp only [List.foldl_cons]
    by_cases hp : pa.2 = netName
    · rw [if_pos hp]; exact ih _ (insertEndpoint_ne acc _)
    · rw [if_neg hp]; exact ih _ h

theorem pinFold_hit_ne (icId netName : String) :
    ∀ (pas : List (String × String)) (acc : List Endpoint),
      (∃ pa ∈ pas, pa.2 = netName) →
      pas.foldl (fun acc2 pa =>
        if pa.2 = netName then insertEndpoint acc2 (icId, pa.1) else acc2) acc ≠ [] := by
  intro pas
  induction pas with
  | nil => intro acc h; obtain ⟨pa, hpa, _⟩ := h; simp at hpa
  | cons pa rest ih =>
    intro acc h
    simp only [List.foldl_cons]
    by_cases hp : pa.2 = netName
    · rw [if_pos hp]
      exact pinFold_preserve_ne icId netName rest _ (insertEndpoint_ne acc _)
    · rw [if_neg hp]
      obtain ⟨q, hq, hqn⟩ := h
      rcases List.mem_cons.mp hq with rfl | hq'
      · exact absurd hqn hp
      · exact ih acc ⟨q, hq', hqn⟩

theorem pinFold_no_hit (icId netName : String) :
    ∀ (pas : List (String × String)) (acc : List Endpoint),
      (∀ pa ∈ pas, pa.2 ≠ netName) →
      pas.foldl (fun acc2 pa =>
        if pa.2 = netName then insertEndpoint acc2 (icId, pa.1) else acc2) acc = acc := by
  intro pas
  induction pas with
  | nil => intro acc _; rfl
  | cons pa rest ih =>
    intro acc h
    simp only [List.foldl_cons]
    rw [if_neg (h pa (List.mem_cons_self _ _))]
    exact ih acc (fun q hq => h q (List.mem_cons_of_mem _ hq))

theorem icsFold_preserve_ne (netName : String) :
    ∀ (ics : List ICInstance) (acc : List Endpoint), acc ≠ [] →
      ics.foldl (fun acc ic =>
        ic.pinAssignments.foldl
          (fun acc2 pa => if pa.2 = netName then insertEndpoint acc2 (ic.instanceId, pa.1) else acc2)
          acc) acc ≠ [] := by
  intro ics
  induction ics with
  | nil => intro acc h; exact h
  | cons ic rest ih =>
    intro acc h
    simp only [List.foldl_cons]
    exact ih _ (pinFold_preserve_ne ic.instanceId netName ic.pinAssignments acc h)

theorem capsFold_preserve_ne (capPin : String) :
    ∀ (caps : List String) (acc : List Endpoint), acc ≠ [] →
      caps.foldl (fun acc cref => insertEndpoint acc (cref, capPin)) acc ≠ [] := by
  intro caps
  induction caps with
  | nil => intro acc h; exact h
  | cons c rest ih =>
    intro acc _
    simp only [List.foldl_cons]
    exact ih _ (insertEndpoint_ne acc _)

/-- A pin mapped to the power net on any IC makes the power net non-empty. -/
theorem powerConnections_ne_of_hit (ics : List ICInstance) (caps : List String)
    (netName capPin : String)
    (h : ∃ ic ∈ ics, ∃ pa ∈ ic.pinAssignments, pa.2 = netName) :
    powerConnections ics caps netName capPin ≠ [] := by
  unfold powerConnections
  apply capsFold_preserve_ne
  obtain ⟨ic, hic, hpa⟩ := h
  have key : ∀ (l : List ICInstance) (acc : List Endpoint),
      (acc ≠ [] ∨ ∃ x ∈ l, ∃ pa ∈ x.pinAssignments, pa.2 = netName) →
      l.foldl (fun acc ic =>
        ic.pinAssignments.foldl
          (fun acc2 pa => if pa.2 = netName then insertEndpoint acc2 (ic.instanceId, pa.1) else acc2)
          acc) acc ≠ [] := by
    intro l
    induction l with
    | nil =>
      intro acc h2
      rcases h2 with h2 | h2
      · exact h2
      · obtain ⟨x, hx, _⟩ := h2; simp at hx
    | cons x rest ih =>
      intro acc h2
      simp only [List.foldl_cons]
      rcases h2 with h2 | h2
      · exact ih _ (Or.inl (pinFold_preserve_ne x.instanceId netName x.pinAssignments acc h2))
      · obtain ⟨y, hy, hpy⟩ := h2
        rcases List.mem_cons.mp hy with rfl | hy'
        · exact ih _ (Or.inl (pinFold_hit_ne y.instanceId netName y.pinAssignments acc hpy))
        · rcases hfirst : x.pinAssignments.foldl
              (fun acc2 pa =>
                if pa.2 = netName then insertEndpoint acc2 (x.instanceId, pa.1) else acc2) acc
            with _ | _
          · exact ih _ (Or.inr ⟨y, hy', hpy⟩)
          · exact ih _ (Or.inl (by rw [hfirst]; simp))
  exact key ics [] (Or.inr ⟨ic, hic, hpa⟩)

/-- A non-empty capacitor list alone makes a power net non-empty. -/
theorem powerConnections_ne_of_caps (ics : List ICInstance) (caps : List String)
    (netName capPin : String) (h : caps ≠ []) :
    powerConnections ics caps netName capPin ≠ [] := by
  unfold powerConnections
  rcases caps with _ | ⟨c, rest⟩
  · exact absurd rfl h
  simp only [List.foldl_cons]
  exact capsFold_preserve_ne capPin rest _ (insertEndpoint_ne _ _)

/-- With no capacitors and no pin mapped to the power net, the power net is
empty (and is therefore not emitted). -/
theorem powerConnections_nil (ics : List ICInstance) (netName capPin : String)
    (h : ∀ ic ∈ ics, ∀ pa ∈ ic.pinAssignments, pa.2 ≠ netName) :
    powerConnections ics [] netName capPin = [] := by
  unfold powerConnections
  simp only [List.foldl_nil]
  have key : ∀ (l : List ICInstance),
      (∀ ic ∈ l, ∀ pa ∈ ic.pinAssignments, pa.2 ≠ netName) →
      l.foldl (fun acc ic =>
        ic.pinAssignments.foldl
          (fun acc2 pa => if pa.2 = netName then insertEndpoint acc2 (ic.instanceId, pa.1) else acc2)
          acc) [] = [] := by
    intro l
    induction l with
    | nil => intro _; rfl
    | cons ic rest ih =>
      intro h2
      simp only [List.foldl_cons]
      rw [pinFold_no_hit ic.instanceId netName ic.pinAssignments []
        (h2 ic (List.mem_cons_self _ _))]
      exact ih (fun x hx => h2 x (List.mem_cons_of_mem _ hx))
  exact key ics h

theorem upsertAssoc_mem (l : List (String × String)) (kv pa : String × String)
    (h : pa ∈ upsertAssoc l kv) : pa ∈ l ∨ pa.2 = kv.2 := by
  unfold upsertAssoc at h
  by_cases hc : containsKey l kv.1
  · rw [if_pos hc] at h
    obtain ⟨q, hq, hqe⟩ := List.mem_map.mp h
    by_cases hqk : q.1 = kv.1
    · right; rw [← hqe]; simp [hqk]
    · left; rw [← hqe]; simp only [if_neg hqk]; exact hq
  · rw [if_neg hc] at h
    rcases List.mem_append.mp h with h2 | h2
    · left; exact h2
    · right
      simp only [List.mem_singleton] at h2
      rw [h2]

theorem foldl_upsert_mem (links : List (String × String)) :
    ∀ (acc : List (String × String)) (pa : String × String),
      pa ∈ links.foldl upsertAssoc acc →
      pa ∈ acc ∨ pa.2 ∈ links.map Prod.snd := by
  induction links with
  | nil => intro acc pa h; exact Or.inl h
  | cons kv rest ih =>
    intro acc pa h
    simp only [List.foldl_cons] at h
    rcases ih _ pa h with h2 | h2
    · rcases upsertAssoc_mem acc kv pa h2 with h3 | h3
      · exact Or.inl h3
      · exact Or.inr (by simp [h3])
    · exact Or.inr (List.mem_cons_of_mem _ h2)

/-- When every gate is an alias, the grouping dict is empty and no real IC
is allocated. -/
theorem gateGroups_all_alias (gates : List Gate) (h : ∀ g ∈ gates, g.gateType = .ALIAS) :
    gateGroups gates = [] := by
  have key : ∀ (gs : List Gate) (gr : List (GateType × List Gate)),
      (∀ g ∈ gs, g.gateType = .ALIAS) →
      gs.foldl (fun gr g => if g.gateType = .ALIAS then gr else addGateToGroups gr g) gr = gr := by
    intro gs
    induction gs with
    | nil => intro gr _; rfl
    | cons g rest ih =>
      intro gr h2
      simp only [List.foldl_cons, h2 g (List.mem_cons_self g rest), if_true]
      exact ih gr (fun x hx => h2 x (List.mem_cons_of_mem g hx))
  exact key gates [] h

/-- Catalog facts for every non-alias kind: its entry exists, the part is a
real one, capacity is positive, VCC is pin 14 and GND pin 7, and the
packing formula holds. -/
theorem icMapping_kind_facts (gates : List Gate) (k : GateType) (hk : k ≠ .ALIAS) :
    ∃ mp, icMapping k = some mp ∧ mp.partNumber ≠ "ALIAS" ∧ 1 ≤ mp.gatesPerIC ∧
      mp.vccPin = "14" ∧ mp.gndPin = "7" ∧
      countPart (mapGatesToICs gates) mp.partNumber =
        ceilDiv (countType gates k) mp.gatesPerIC := by
  have huniq : ∀ k0 : GateType, k0 ≠ .ALIAS →
      ∀ mp0, icMapping k0 = some mp0 →
      (∀ k1 mp1, icMapping k1 = some mp1 → mp1.partNumber = mp0.partNumber → k1 = k0) := by
    intro k0 hk0 mp0 h0 k1 mp1 h1 hp
    cases k0 <;> cases k1 <;>
      simp only [icMapping] at h0 h1 <;>
      first
        | rfl
        | exact absurd rfl hk0
        | exact Option.noConfusion h0
        | exact Option.noConfusion h1
        | (obtain rfl := Option.some.inj h0
           obtain rfl := Option.some.inj h1
           exact absurd hp (by decide))
  cases k with
  | ALIAS => exact absurd rfl hk
  | AND =>
    exact ⟨_, rfl, by decide, by decide, by decide, by decide,
      countPart_mapGatesToICs gates .AND _ rfl (huniq .AND (by decide) _ rfl) (by decide) (by decide)⟩
  | OR =>
    exact ⟨_, rfl, by decide, by decide, by decide, by decide,
      countPart_mapGatesToICs gates .OR _ rfl (huniq .OR (by decide) _ rfl) (by decide) (by decide)⟩
  | XOR =>
    exact ⟨_, rfl, by decide, by decide, by decide, by decide,
      countPart_mapGatesToICs gates .XOR _ rfl (huniq .XOR (by decide) _ rfl) (by decide) (by decide)⟩
  | NOT =>
    exact ⟨_, rfl, by decide, by decide, by decide, by decide,
      countPart_mapGatesToICs gates .NOT _ rfl (huniq .NOT (by decide) _ rfl) (by decide) (by decide)⟩
  | DFF =>
    exact ⟨_, rfl, by decide, by decide, by decide, by decide,
      countPart_mapGatesToICs gates .DFF _ rfl (huniq .DFF (by decide) _ rfl) (by decide) (by decide)⟩

theorem ceilDiv_pos (n c : Nat) (hn : 1 ≤ n) (hc : 1 ≤ c) : 1 ≤ ceilDiv n c := by
  unfold ceilDiv
  rw [Nat.le_div_iff_mul_le hc]
  omega

theorem exists_mem_of_countPart_ne (ics : List ICInstance) (p : String)
    (h : countPart ics p ≠ 0) : ∃ ic ∈ ics, ic.partNumber = p := by
  unfold countPart at h
  rcases hfil : ics.filter (fun ic => ic.partNumber = p) with _ | ⟨x, xs⟩
  · rw [hfil] at h; simp at h
  · have hx : x ∈ ics.filter (fun ic => ic.partNumber = p) := by rw [hfil]; simp
    rcases List.mem_filter.mp hx with ⟨hmem, hpart⟩
    exact ⟨x, hmem, by simpa using hpart⟩

/-- Every IC the allocator produces has its VCC pin 14 and GND pin 7 bound
to the power nets. -/
theorem allocICs_power_pins :
    ∀ (groups : List (GateType × List Gate)) (n : Nat) (ic : ICInstance),
      ic ∈ allocICs groups n →
      ("14", "VCC") ∈ ic.pinAssignments ∧ ("7", "GND") ∈ ic.pinAssignments := by
  intro groups
  induction groups with
  | nil => intro n ic h; simp [allocICs] at h
  | cons kl rest ih =>
    intro n ic h
    rcases kl with ⟨k, l⟩
    simp only [allocICs] at h
    rcases hm : icMapping k with _ | mp
    · rw [hm] at h; exact ih _ ic h
    · rw [hm] at h
      rcases List.mem_append.mp h with hmem | hmem
      · obtain ⟨i, _, hi⟩ := List.mem_map.mp hmem
        have hpins : mp.vccPin = "14" ∧ mp.gndPin = "7" := by
          cases k <;> simp only [icMapping] at hm <;>
            first
              | exact Option.noConfusion hm
              | (obtain rfl := Option.some.inj hm; exact ⟨rfl, rfl⟩)
        rw [← hi]
        unfold mkIC
        constructor
        · exact List.mem_append.mpr (Or.inr (by rw [← hpins.1]; simp))
        · exact List.mem_append.mpr (Or.inr (by rw [← hpins.2]; simp))
      · exact ih _ ic hmem

/-- A non-alias gate forces at least one real IC carrying the VCC/GND
power-pin bindings. -/
theorem exists_power_ic (gates : List Gate) (hg : ∃ g ∈ gates, g.gateType ≠ .ALIAS) :
    ∃ ic ∈ mapGatesToICs gates,
      ("14", "VCC") ∈ ic.pinAssignments ∧ ("7", "GND") ∈ ic.pinAssignments := by
  obtain ⟨g, hgm, hgt⟩ := hg
  obtain ⟨mp, hmp, hpal, hcap, _, _, hcount⟩ := icMapping_kind_facts gates g.gateType hgt
  have hct : 1 ≤ countType gates g.gateType := by
    unfold countType
    have : g ∈ gates.filter (fun x => x.gateType = g.gateType) :=
      List.mem_filter.mpr ⟨hgm, by simp⟩
    rcases hfil : gates.filter (fun x => x.gateType = g.gateType) with _ | _
    · rw [hfil] at this; simp at this
    · rw [hfil]; simp
  have hpos : countPart (mapGatesToICs gates) mp.partNumber ≠ 0 := by
    rw [hcount]
    have := ceilDiv_pos (countType gates g.gateType) mp.gatesPerIC hct hcap
    omega
  obtain ⟨ic, hic, hpart⟩ := exists_mem_of_countPart_ne _ _ hpos
  refine ⟨ic, hic, ?_⟩
  unfold mapGatesToICs at hic
  rcases List.mem_append.mp hic with hmem | hmem
  · exact allocICs_power_pins (gateGroups gates) 0 ic hmem
  · exfalso
    by_cases he : (passLinks gates).isEmpty
    · rw [if_pos he] at hmem; simp at hmem
    · rw [if_neg he] at hmem
      simp only [List.mem_singleton] at hmem
      rw [hmem] at hpart
      exact hpal hpart.symm

/-- When every gate is an alias, the packer output is at most the pseudo-IC
(which is not a real 74xx part, so no capacitors exist either). -/
theorem mapGatesToICs_all_alias (gates : List Gate) (h : ∀ g ∈ gates, g.gateType = .ALIAS) :
    mapGatesToICs gates =
      (if (passLinks gates).isEmpty then []
       else [{ partNumber := "ALIAS", package := "N/A", instanceId := "ALIAS", gates := [],
               pinAssignments := (passLinks gates).foldl upsertAssoc [] }]) := by
  unfold mapGatesToICs
  rw [gateGroups_all_alias gates h]
  rfl

theorem capRefs_all_alias (gates : List Gate) (h : ∀ g ∈ gates, g.gateType = .ALIAS) :
    capRefs (mapGatesToICs gates) = [] := by
  rw [mapGatesToICs_all_alias gates h]
  by_cases he : (passLinks gates).isEmpty
  · rw [if_pos he]; rfl
  · rw [if_neg he]
    simp [capRefs, isRealPart]

/-- Shape of the emitted net-name list. -/
theorem emittedNetNames_eq (m : Module) (ics : List ICInstance) :
    emittedNetNames m ics =
      (if (powerConnections ics (capRefs ics) "VCC" "1").isEmpty then [] else ["VCC"]) ++
      (if (powerConnections ics (capRefs ics) "GND" "2").isEmpty then [] else ["GND"]) ++
      signalNetKeys m ics ++
      (if (unusedPins ics).isEmpty then [] else ["GND_UNUSED"]) := by
  unfold emittedNetNames emittedNets signalNetKeys
  by_cases h1 : (powerConnections ics (capRefs ics) "VCC" "1").isEmpty <;>
    by_cases h2 : (powerConnections ics (capRefs ics) "GND" "2").isEmpty <;>
    by_cases h3 : (unusedPins ics).isEmpty <;>
    simp [h1, h2, h3]

theorem isEmpty_false_iff {α : Type} (l : List α) : l.isEmpty = false ↔ l ≠ [] := by
  cases l <;> simp

/-- Membership in the optionally-emitted one-net segments. -/
theorem mem_opt_segment (name x : String) (cond : Bool) :
    (x ∈ if cond then ([] : List String) else [name]) ↔ (cond = false ∧ x = name) := by
  cases cond <;> simp

/-- The power net for `VCC`/`GND` over the packer's output is non-empty
exactly when some non-alias gate exists (given that no alias ties a net
literally named like the power net). -/
theorem powerConns_mapGates_ne_iff (gates : List Gate) (netName capPin : String)
    (hn : netName = "VCC" ∨ netName = "GND")
    (hsrc : ∀ g ∈ gates, g.gateType = .ALIAS → g.inputs.headD "" ≠ netName) :
    powerConnections (mapGatesToICs gates) (capRefs (mapGatesToICs gates)) netName capPin ≠ []
      ↔ ∃ g ∈ gates, g.gateType ≠ .ALIAS := by
  constructor
  · intro hne
    by_contra hcon
    have hall : ∀ g ∈ gates, g.gateType = .ALIAS := by
      intro g hg
      by_contra hne2
      exact hcon ⟨g, hg, hne2⟩
    apply hne
    rw [capRefs_all_alias gates hall]
    apply powerConnections_nil
    intro ic hic pa hpa hval
    rw [mapGatesToICs_all_alias gates hall] at hic
    by_cases he : (passLinks gates).isEmpty
    · rw [if_pos he] at hic; simp at hic
    · rw [if_neg he] at hic
      simp only [List.mem_singleton] at hic
      rw [hic] at hpa
      rcases foldl_upsert_mem (passLinks gates) [] pa hpa with h2 | h2
      · simp at h2
      · rw [passLinks_eq] at h2
        simp only [List.map_map] at h2
        obtain ⟨g, hgf, hgv⟩ := List.mem_map.mp h2
        rcases List.mem_filter.mp hgf with ⟨hgm, hga⟩
        exact hsrc g hgm (by simpa using hga) (by rw [← hgv] at hval; exact hval)
  · intro hex
    obtain ⟨ic, hic, hv, hgnd⟩ := exists_power_ic gates hex
    rcases hn with rfl | rfl
    · exact powerConnections_ne_of_hit _ _ _ _ ⟨ic, hic, ("14", "VCC"), hv, rfl⟩
    · exact powerConnections_ne_of_hit _ _ _ _ ⟨ic, hic, ("7", "GND"), hgnd, rfl⟩

/-- Keys of the net map after `netsAdd`. -/
theorem netsAdd_keys (name : String) (ep : Endpoint) (x : String) :
    ∀ nets : Nets,
      x ∈ (netsAdd nets name ep).map Prod.fst ↔ x ∈ nets.map Prod.fst ∨ x = name := by
  intro nets
  induction nets with
  | nil => simp [netsAdd, eq_comm]
  | cons p rest ih =>
    rcases p with ⟨n, eps⟩
    by_cases hn : n = name
    · simp [netsAdd, hn]
      tauto
    · simp only [netsAdd, if_neg hn, List.map_cons, List.mem_cons, ih]
      tauto

theorem keys_foldl_mono {β : Type} (f : Nets → β → Nets)
    (hf : ∀ ns b x, x ∈ ns.map Prod.fst → x ∈ (f ns b).map Prod.fst) :
    ∀ (l : List β) (ns : Nets) (x : String),
      x ∈ ns.map Prod.fst → x ∈ (l.foldl f ns).map Prod.fst := by
  intro l
  induction l with
  | nil => intro ns x h; exact h
  | cons b rest ih => intro ns x h; exact ih _ x (hf ns b x h)

theorem addPortNets_keys_mono (front : String) (s : Signal) (ns : Nets) (x : String)
    (h : x ∈ ns.map Prod.fst) : x ∈ (addPortNets front ns s).map Prod.fst := by
  unfold addPortNets
  by_cases hw : s.width > 1
  · rw [if_pos hw]
    exact keys_foldl_mono _ (fun ns2 i y hy => (netsAdd_keys _ _ y ns2).mpr (Or.inl hy)) _ ns x h
  · rw [if_neg hw]
    exact (netsAdd_keys _ _ x ns).mpr (Or.inl h)

theorem addPortNets_keys_self (front : String) (s : Signal) (ns : Nets) (hw : s.width ≤ 1) :
    s.name ∈ (addPortNets front ns s).map Prod.fst := by
  unfold addPortNets
  rw [if_neg (by omega)]
  exact (netsAdd_keys _ _ s.name ns).mpr (Or.inr rfl)

theorem portsFold_keys_self (front : String) (s : Signal) (hw : s.width ≤ 1) :
    ∀ (sigs : List Signal) (ns : Nets), s ∈ sigs →
      s.name ∈ (sigs.foldl (addPortNets front) ns).map Prod.fst := by
  intro sigs
  induction sigs with
  | nil => intro ns h; simp at h
  | cons t rest ih =>
    intro ns h
    simp only [List.foldl_cons]
    rcases List.mem_cons.mp h with rfl | h'
    · exact keys_foldl_mono _ (fun ns2 t2 y hy => addPortNets_keys_mono front t2 ns2 y hy) rest _
        s.name (addPortNets_keys_self front s ns hw)
    · exact ih _ h'

theorem addPinNets_keys_mono (ics : List ICInstance) (ns : Nets) (x : String)
    (h : x ∈ ns.map Prod.fst) : x ∈ (addPinNets ics ns).map Prod.fst := by
  unfold addPinNets
  refine keys_foldl_mono _ ?_ ics ns x h
  intro ns2 ic y hy
  by_cases hp : ic.partNumber = "ALIAS"
  · rw [if_pos hp]; exact hy
  · rw [if_neg hp]
    refine keys_foldl_mono _ ?_ ic.pinAssignments ns2 y hy
    intro ns3 pa z hz
    by_cases hpow : pa.2 = "VCC" ∨ pa.2 = "GND"
    · rw [if_pos hpow]; exact hz
    · rw [if_neg hpow]
      exact (netsAdd_keys _ _ z ns3).mpr (Or.inl hz)

theorem netsUnionInto_keys_mono (dst : String) (eps : List Endpoint) (x : String) :
    ∀ nets : Nets, x ∈ nets.map Prod.fst → x ∈ (netsUnionInto nets dst eps).map Prod.fst := by
  intro nets
  induction nets with
  | nil => intro h; simp at h
  | cons p rest ih =>
    rcases p with ⟨n, cur⟩
    intro h
    by_cases hn : n = dst
    · simpa [netsUnionInto, hn] using h
    · simp only [netsUnionInto, if_neg hn, List.map_cons, List.mem_cons] at h ⊢
      rcases h with h | h
      · exact Or.inl h
      · exact Or.inr (ih h)

theorem removeNet_keys_mem (name x : String) (hx : x ≠ name) :
    ∀ nets : Nets, x ∈ nets.map Prod.fst → x ∈ (removeNet nets name).map Prod.fst := by
  intro nets h
  obtain ⟨p, hp, hpx⟩ := List.mem_map.mp h
  refine List.mem_map.mpr ⟨p, ?_, hpx⟩
  unfold removeNet
  refine List.mem_filter.mpr ⟨hp, ?_⟩
  rw [hpx]
  simpa using hx

theorem applyAliasMerges_keys_mem (x : String) :
    ∀ (links : List (String × String)) (nets : Nets),
      (∀ l ∈ links, l.2 ≠ x) → x ∈ nets.map Prod.fst →
      x ∈ (applyAliasMerges links nets).map Prod.fst := by
  intro links
  induction links with
  | nil => intro nets _ h; exact h
  | cons l rest ih =>
    intro nets hsrc h
    unfold applyAliasMerges
    simp only [List.foldl_cons]
    have hstep : x ∈ (match lookupAssoc nets l.2 with
        | none => nets
        | some srcEps =>
          if l.1 ≠ l.2 then removeNet (netsUnionInto nets l.1 srcEps) l.2
          else netsUnionInto nets l.1 srcEps).map Prod.fst := by
      rcases hlk : lookupAssoc nets l.2 with _ | srcEps
      · exact h
      · dsimp only
        by_cases hd : l.1 ≠ l.2
        · rw [if_pos hd]
          exact removeNet_keys_mem l.2 x
            (fun he => hsrc l (List.mem_cons_self _ _) he.symm) _
            (netsUnionInto_keys_mono l.1 srcEps x nets h)
        · rw [if_neg hd]
          exact netsUnionInto_keys_mono l.1 srcEps x nets h
    exact ih _ (fun q hq => hsrc q (List.mem_cons_of_mem _ hq)) hstep

/-- Witness for the packing formula at a single AND gate. -/
theorem c5_witness :
    countPart (mapGatesToICs [⟨.AND, ["a", "b"], "y", ""⟩]) "74HC08" =
      ceilDiv (countType [⟨.AND, ["a", "b"], "y", ""⟩] .AND) 4 ∧
    countPart (mapGatesToICs [⟨.AND, ["a", "b"], "y", ""⟩]) "74HC32" =
      ceilDiv (countType [⟨.AND, ["a", "b"], "y", ""⟩] .OR) 4 ∧
    countPart (mapGatesToICs [⟨.AND, ["a", "b"], "y", ""⟩]) "74HC86" =
      ceilDiv (countType [⟨.AND, ["a", "b"], "y", ""⟩] .XOR) 4 ∧
    countPart (mapGatesToICs [⟨.AND, ["a", "b"], "y", ""⟩]) "74HC04" =
      ceilDiv (countType [⟨.AND, ["a", "b"], "y", ""⟩] .NOT) 6 ∧
    countPart (mapGatesToICs [⟨.AND, ["a", "b"], "y", ""⟩]) "74HC74" =
      ceilDiv (countType [⟨.AND, ["a", "b"], "y", ""⟩] .DFF) 2 ∧
    countPart (mapGatesToICs [⟨.AND, ["a", "b"], "y", ""⟩]) "ALIAS" =
      (if ([⟨.AND, ["a", "b"], "y", ""⟩] : List Gate).any (fun g => g.gateType == .ALIAS)
       then 1 else 0) ∧
    (∀ ic ∈ mapGatesToICs [⟨.AND, ["a", "b"], "y", ""⟩],
       ic.partNumber ∈ ["74HC08", "74HC32", "74HC86", "74HC04", "74HC74", "ALIAS"]) :=
  c5_packing_formula [⟨.AND, ["a", "b"], "y", ""⟩]

/-- Claim C8 as amended: for a packed gate list, the `VCC` and `GND` nets
are emitted iff at least one non-alias gate exists (equivalently, at least
one real IC), the `GND_UNUSED` net is emitted iff some allocated IC has an
unused pin, and every scalar port net that is not consumed as an alias
source is always emitted — all under the sanity proviso that no signal net
is itself named `VCC`/`GND`/`GND_UNUSED` and no alias ties a net with a
power-net name. -/
theorem c8_amended_net_emission (m : Module) (gates : List Gate)
    (h1 : "VCC" ∉ signalNetKeys m (mapGatesToICs gates))
    (h2 : "GND" ∉ signalNetKeys m (mapGatesToICs gates))
    (h3 : "GND_UNUSED" ∉ signalNetKeys m (mapGatesToICs gates))
    (hsrc : ∀ g ∈ gates, g.gateType = .ALIAS →
       g.inputs.headD "" ≠ "VCC" ∧ g.inputs.headD "" ≠ "GND") :
    ("VCC" ∈ emittedNetNames m (mapGatesToICs gates) ↔ ∃ g ∈ gates, g.gateType ≠ .ALIAS) ∧
    ("GND" ∈ emittedNetNames m (mapGatesToICs gates) ↔ ∃ g ∈ gates, g.gateType ≠ .ALIAS) ∧
    ("GND_UNUSED" ∈ emittedNetNames m (mapGatesToICs gates) ↔
       unusedPins (mapGatesToICs gates) ≠ []) ∧
    (∀ s : Signal, (s ∈ mergeSignalsByName m.inputs ∨ s ∈ mergeSignalsByName m.outputs) →
       s.width ≤ 1 →
       (∀ l ∈ aliasLinks (mapGatesToICs gates), l.2 ≠ s.name) →
       s.name ∈ emittedNetNames m (mapGatesToICs gates)) := by
  have hVCC := powerConns_mapGates_ne_iff gates "VCC" "1" (Or.inl rfl)
    (fun g hg ha => (hsrc g hg ha).1)
  have hGND := powerConns_mapGates_ne_iff gates "GND" "2" (Or.inr rfl)
    (fun g hg ha => (hsrc g hg ha).2)
  refine ⟨?_, ?_, ?_, ?_⟩
  · rw [emittedNetNames_eq]
    simp only [List.mem_append, mem_opt_segment]
    constructor
    · rintro (((⟨hv, _⟩ | ⟨_, hc⟩) | hk) | ⟨_, hc⟩)
      · exact hVCC.mp ((isEmpty_false_iff _).mp hv)
      · exact absurd hc (by decide)
      · exact absurd hk h1
      · exact absurd hc (by decide)
    · intro hex
      exact Or.inl (Or.inl (Or.inl ⟨(isEmpty_false_iff _).mpr (hVCC.mpr hex), trivial⟩))
  · rw [emittedNetNames_eq]
    simp only [List.mem_append, mem_opt_segment]
    constructor
    · rintro (((⟨_, hc⟩ | ⟨hv, _⟩) | hk) | ⟨_, hc⟩)
      · exact absurd hc (by decide)
      · exact hGND.mp ((isEmpty_false_iff _).mp hv)
      · exact absurd hk h2
      · exact absurd hc (by decide)
    · intro hex
      exact Or.inl (Or.inl (Or.inr ⟨(isEmpty_false_iff _).mpr (hGND.mpr hex), trivial⟩))
  · rw [emittedNetNames_eq]
    simp only [List.mem_append, mem_opt_segment]
    constructor
    · rintro (((⟨_, hc⟩ | ⟨_, hc⟩) | hk) | ⟨hu, _⟩)
      · exact absurd hc (by decide)
      · exact absurd hc (by decide)
      · exact absurd hk h3
      · exact (isEmpty_false_iff _).mp hu
    · intro hne
      exact Or.inr ⟨(isEmpty_false_iff _).mpr hne, trivial⟩
  · intro s hs hw hnosrc
    rw [emittedNetNames_eq]
    have hkey : s.name ∈ signalNetKeys m (mapGatesToICs gates) := by
      unfold signalNetKeys
      apply applyAliasMerges_keys_mem s.name _ _ hnosrc
      apply addPinNets_keys_mono
      unfold initialNets
      rcases hs with hs | hs
      · exact keys_foldl_mono (addPortNets "JOUT")
          (fun ns s2 y hy => addPortNets_keys_mono "JOUT" s2 ns y hy)
          (mergeSignalsByName m.outputs) _ s.name
          (portsFold_keys_self "JIN" s hw (mergeSignalsByName m.inputs) [] hs)
      · exact portsFold_keys_self "JOUT" s hw (mergeSignalsByName m.outputs) _ hs
    simp only [List.mem_append]
    exact Or.inl (Or.inr hkey)

/-- Witness for the amended C8 at a one-gate module. -/
theorem c8_amended_witness :
    ("VCC" ∉ signalNetKeys c8WitMod (mapGatesToICs [⟨.AND, ["a", "b"], "y", ""⟩]) ∧
     "GND" ∉ signalNetKeys c8WitMod (mapGatesToICs [⟨.AND, ["a", "b"], "y", ""⟩]) ∧
     "GND_UNUSED" ∉ signalNetKeys c8WitMod (mapGatesToICs [⟨.AND, ["a", "b"], "y", ""⟩])) ∧
    (("VCC" ∈ emittedNetNames c8WitMod (mapGatesToICs [⟨.AND, ["a", "b"], "y", ""⟩]) ↔
        ∃ g ∈ [(⟨.AND, ["a", "b"], "y", ""⟩ : Gate)], g.gateType ≠ .ALIAS) ∧
     ("GND" ∈ emittedNetNames c8WitMod (mapGatesToICs [⟨.AND, ["a", "b"], "y", ""⟩]) ↔
        ∃ g ∈ [(⟨.AND, ["a", "b"], "y", ""⟩ : Gate)], g.gateType ≠ .ALIAS) ∧
     ("GND_UNUSED" ∈ emittedNetNames c8WitMod (mapGatesToICs [⟨.AND, ["a", "b"], "y", ""⟩]) ↔
        unusedPins (mapGatesToICs [⟨.AND, ["a", "b"], "y", ""⟩]) ≠ []) ∧
     (∀ s : Signal,
        (s ∈ mergeSignalsByName c8WitMod.inputs ∨ s ∈ mergeSignalsByName c8WitMod.outputs) →
        s.width ≤ 1 →
        (∀ l ∈ aliasLinks (mapGatesToICs [⟨.AND, ["a", "b"], "y", ""⟩]), l.2 ≠ s.name) →
        s.name ∈ emittedNetNames c8WitMod (mapGatesToICs [⟨.AND, ["a", "b"], "y", ""⟩]))) :=
  ⟨⟨by decide, by decide, by decide⟩,
   c8_amended_net_emission c8WitMod [⟨.AND, ["a", "b"], "y", ""⟩]
     (by decide) (by decide) (by decide) (by decide)⟩


/-! ## Claim C7 amended: single-driver within one assign statement -/

theorem digToNat_digitChar (d : Nat) (h : d < 10) :
    digToNat (Nat.digitChar d) = some d := by
  interval_cases d <;> rfl

theorem toDigitsCore_succ (b f n : Nat) (ds : List Char) :
    Nat.toDigitsCore b (f + 1) n ds =
      if n / b = 0 then Nat.digitChar (n % b) :: ds
      else Nat.toDigitsCore b f (n / b) (Nat.digitChar (n % b) :: ds) := by
  rfl

theorem decDigitsAux_toDigitsCore : ∀ (f n : Nat), n < 10 ^ f → 0 < f →
    ∃ p, 1 < p ∧ ∀ (ds : List Char) (a : Nat),
      decDigitsAux (Nat.toDigitsCore 10 f n ds) a = decDigitsAux ds (a * p + n) := by
  intro f
  induction f with
  | zero => intro n _ h0; exact absurd h0 (by omega)
  | succ f ih =>
    intro n hlt _
    by_cases hz : n / 10 = 0
    · refine ⟨10, by omega, ?_⟩
      intro ds a
      rw [toDigitsCore_succ, if_pos hz]
      have hn10 : n < 10 := by omega
      show (match digToNat (Nat.digitChar (n % 10)) with
            | none => none
            | some d => decDigitsAux ds (a * 10 + d)) = _
      rw [digToNat_digitChar (n % 10) (Nat.mod_lt n (by omega))]
      rw [Nat.mod_eq_of_lt hn10]
    · have hdivlt : n / 10 < 10 ^ f := by
        have : n < 10 ^ f * 10 := by
          rw [← pow_succ]; exact hlt
        exact Nat.div_lt_of_lt_mul (by omega)
      have hf : 0 < f := by
        by_contra hc
        have : f = 0 := by omega
        subst this
        simp at hdivlt
        exact hz hdivlt
      obtain ⟨p, hp, hrec⟩ := ih (n / 10) hdivlt hf
      refine ⟨p * 10, by nlinarith, ?_⟩
      intro ds a
      rw [toDigitsCore_succ, if_neg hz, hrec]
      show (match digToNat (Nat.digitChar (n % 10)) with
            | none => none
            | some d => decDigitsAux ds ((a * p + n / 10) * 10 + d)) = _
      rw [digToNat_digitChar (n % 10) (Nat.mod_lt n (by omega))]
      show decDigitsAux ds ((a * p + n / 10) * 10 + n % 10) = decDigitsAux ds (a * (p * 10) + n)
      congr 1
      have hmod := Nat.div_add_mod n 10
      calc (a * p + n / 10) * 10 + n % 10
          = a * (p * 10) + (10 * (n / 10) + n % 10) := by ring
        _ = a * (p * 10) + n := by rw [hmod]

theorem decDigitsAux_repr (n : Nat) : decDigitsAux (Nat.repr n).data 0 = some n := by
  have hlt : n < 10 ^ (n + 1) :=
    lt_of_lt_of_le (Nat.lt_pow_self (by omega) n)
      (Nat.pow_le_pow_right (by omega) (Nat.le_succ n))
  obtain ⟨p, _, h⟩ := decDigitsAux_toDigitsCore (n + 1) n hlt (by omega)
  have hdata : (Nat.repr n).data = Nat.toDigitsCore 10 (n + 1) n [] := rfl
  rw [hdata, h []]
  simp [decDigitsAux]

theorem repr_data_inj {a b : Nat} (h : (Nat.repr a).data = (Nat.repr b).data) : a = b := by
  have ha := decDigitsAux_repr a
  have hb := decDigitsAux_repr b
  rw [h] at ha
  rw [ha] at hb
  exact Option.some.inj hb

theorem tempN_inj {b b' : Char} {j k : Nat} (h : tempN b j = tempN b' k) :
    b = b' ∧ j = k := by
  have hd := congrArg String.data h
  simp only [tempN] at hd
  injection hd with h1 hd; injection hd with h2 hd; injection hd with h3 hd
  injection hd with h4 hd; injection hd with h5 hd; injection hd with h6 hd
  exact ⟨h5, repr_data_inj hd⟩

theorem tempName_l (k : Nat) : tempName "l" k = tempN 'l' k := by
  apply String.ext
  simp [tempName, tempN, String.data_append]

theorem tempName_r (k : Nat) : tempName "r" k = tempN 'r' k := by
  apply String.ext
  simp [tempName, tempN, String.data_append]

theorem tempName_n (k : Nat) : tempName "n" k = tempN 'n' k := by
  apply String.ext
  simp [tempName, tempN, String.data_append]

theorem targetOk_of_not_tmpPrefixed (t : String) (c : Nat) (h : tmpPrefixed t = false) :
    targetOkFor t c := by
  intro b k hk
  subst hk
  simp [tmpPrefixed, tempN] at h

theorem targetOk_tempN (b : Char) (k : Nat) : targetOkFor (tempN b k) k := by
  intro b' k' h
  exact le_of_eq (tempN_inj h).2.symm

theorem astToGates_outputs (e : BExpr) : ∀ (target : String) (c : Nat),
    c ≤ (astToGates e target [] c).2.2 ∧
    (∀ g ∈ (astToGates e target [] c).2.1,
       g.output = target ∨
       ∃ b k, c < k ∧ k ≤ (astToGates e target [] c).2.2 ∧ g.output = tempN b k) ∧
    (targetOkFor target c → ((astToGates e target [] c).2.1.map (fun g => g.output)).Nodup) := by
  induction e with
  | id s =>
    intro target c
    refine ⟨le_refl c, ?_, ?_⟩
    · intro g hg; simp [astToGates] at hg
    · intro _; simp [astToGates]
  | notE a ih =>
    intro target c
    simp only [astToGates, newTemp]
    rcases ha : astToGates a (tempName "n" (c + 1)) [] (c + 1) with ⟨s1, l1, k1⟩
    obtain ⟨ih1, ih2, ih3⟩ := ih (tempName "n" (c + 1)) (c + 1)
    rw [ha] at ih1 ih2 ih3
    dsimp only at ih1 ih2 ih3 ⊢
    have hl1 : ∀ g ∈ l1, ∃ b k, c < k ∧ k ≤ k1 ∧ g.output = tempN b k := by
      intro g hg
      rcases ih2 g hg with h | ⟨b, k, hk1, hk2, he⟩
      · exact ⟨'n', c + 1, by omega, ih1, by rw [h, tempName_n]⟩
      · exact ⟨b, k, by omega, hk2, he⟩
    refine ⟨by omega, ?_, ?_⟩
    · intro g hg
      simp only [List.mem_append, List.mem_singleton] at hg
      rcases hg with hg | hg
      · obtain ⟨b, k, hk1, hk2, he⟩ := hl1 g hg
        exact Or.inr ⟨b, k, hk1, hk2, he⟩
      · subst hg; exact Or.inl rfl
    · intro htOk
      rw [List.map_append, List.nodup_append]
      refine ⟨?_, by simp, ?_⟩
      · have := ih3 (by rw [tempName_n]; exact targetOk_tempN 'n' (c + 1))
        exact this
      · intro x hx hx2
        simp only [List.map_cons, List.map_nil, List.mem_singleton] at hx2
        subst hx2
        simp only [List.mem_map] at hx
        obtain ⟨g, hg, hge⟩ := hx
        obtain ⟨b, k, hk1, _, he⟩ := hl1 g hg
        rw [he] at hge
        exact absurd (htOk b k hge.symm) (by omega)
  | andE a b iha ihb =>
    intro target c
    simp only [astToGates, newTemp]
    rcases ha : astToGates a (tempName "l" (c + 1)) [] (c + 1) with ⟨s1, l1, k1⟩
    obtain ⟨iha1, iha2, iha3⟩ := iha (tempName "l" (c + 1)) (c + 1)
    rw [ha] at iha1 iha2 iha3
    dsimp only at iha1 iha2 iha3 ⊢
    rcases hb : astToGates b (tempName "r" (k1 + 1)) [] (k1 + 1) with ⟨s2, l2, k2⟩
    have hb' : astToGates b (tempName "r" (k1 + 1)) l1 (k1 + 1) = (s2, l1 ++ l2, k2) := by
      rw [astToGates_acc, hb]
    obtain ⟨ihb1, ihb2, ihb3⟩ := ihb (tempName "r" (k1 + 1)) (k1 + 1)
    rw [hb] at ihb1 ihb2 ihb3
    rw [hb']
    dsimp only at ihb1 ihb2 ihb3 ⊢
    have hl1 : ∀ g ∈ l1, ∃ bb k, c < k ∧ k ≤ k1 ∧ g.output = tempN bb k := by
      intro g hg
      rcases iha2 g hg with h | ⟨bb, k, hk1, hk2, he⟩
      · exact ⟨'l', c + 1, by omega, iha1, by rw [h, tempName_l]⟩
      · exact ⟨bb, k, by omega, hk2, he⟩
    have hl2 : ∀ g ∈ l2, ∃ bb k, k1 < k ∧ k ≤ k2 ∧ g.output = tempN bb k := by
      intro g hg
      rcases ihb2 g hg with h | ⟨bb, k, hk1, hk2, he⟩
      · exact ⟨'r', k1 + 1, by omega, ihb1, by rw [h, tempName_r]⟩
      · exact ⟨bb, k, by omega, hk2, he⟩
    refine ⟨by omega, ?_, ?_⟩
    · intro g hg
      simp only [List.mem_append, List.mem_singleton] at hg
      rcases hg with (hg | hg) | hg
      · obtain ⟨bb, k, hk1, hk2, he⟩ := hl1 g hg
        exact Or.inr ⟨bb, k, hk1, by omega, he⟩
      · obtain ⟨bb, k, hk1, hk2, he⟩ := hl2 g hg
        exact Or.inr ⟨bb, k, by omega, hk2, he⟩
      · subst hg; exact Or.inl rfl
    · intro htOk
      rw [List.map_append, List.map_append, List.nodup_append, List.nodup_append]
      refine ⟨⟨?_, ?_, ?_⟩, by simp, ?_⟩
      · exact iha3 (by rw [tempName_l]; exact targetOk_tempN 'l' (c + 1))
      · exact ihb3 (by rw [tempName_r]; exact targetOk_tempN 'r' (k1 + 1))
      · intro x hx1 hx2
        simp only [List.mem_map] at hx1 hx2
        obtain ⟨g1, hg1, he1⟩ := hx1
        obtain ⟨g2, hg2, he2⟩ := hx2
        obtain ⟨b1, j1, hj1, hj2, hoe1⟩ := hl1 g1 hg1
        obtain ⟨b2, j2, hj3, hj4, hoe2⟩ := hl2 g2 hg2
        rw [← he1, hoe1] at he2
        rw [hoe2] at he2
        obtain ⟨_, hjj⟩ := tempN_inj he2.symm
        omega
      · intro x hx hx2
        simp only [List.map_cons, List.map_nil, List.mem_singleton] at hx2
        subst hx2
        rcases List.mem_append.mp hx with hx | hx <;>
          simp only [List.mem_map] at hx
        · obtain ⟨g, hg, hge⟩ := hx
          obtain ⟨bb, k, hk1, _, he⟩ := hl1 g hg
          rw [he] at hge
          exact absurd (htOk bb k hge.symm) (by omega)
        · obtain ⟨g, hg, hge⟩ := hx
          obtain ⟨bb, k, hk1, _, he⟩ := hl2 g hg
          rw [he] at hge
          exact absurd (htOk bb k hge.symm) (by omega)
  | xorE a b iha ihb =>
    intro target c
    simp only [astToGates, newTemp]
    rcases ha : astToGates a (tempName "l" (c + 1)) [] (c + 1) with ⟨s1, l1, k1⟩
    obtain ⟨iha1, iha2, iha3⟩ := iha (tempName "l" (c + 1)) (c + 1)
    rw [ha] at iha1 iha2 iha3
    dsimp only at iha1 iha2 iha3 ⊢
    rcases hb : astToGates b (tempName "r" (k1 + 1)) [] (k1 + 1) with ⟨s2, l2, k2⟩
    have hb' : astToGates b (tempName "r" (k1 + 1)) l1 (k1 + 1) = (s2, l1 ++ l2, k2) := by
      rw [astToGates_acc, hb]
    obtain ⟨ihb1, ihb2, ihb3⟩ := ihb (tempName "r" (k1 + 1)) (k1 + 1)
    rw [hb] at ihb1 ihb2 ihb3
    rw [hb']
    dsimp only at ihb1 ihb2 ihb3 ⊢
    have hl1 : ∀ g ∈ l1, ∃ bb k, c < k ∧ k ≤ k1 ∧ g.output = tempN bb k := by
      intro g hg
      rcases iha2 g hg with h | ⟨bb, k, hk1, hk2, he⟩
      · exact ⟨'l', c + 1, by omega, iha1, by rw [h, tempName_l]⟩
      · exact ⟨bb, k, by omega, hk2, he⟩
    have hl2 : ∀ g ∈ l2, ∃ bb k, k1 < k ∧ k ≤ k2 ∧ g.output = tempN bb k := by
      intro g hg
      rcases ihb2 g hg with h | ⟨bb, k, hk1, hk2, he⟩
      · exact ⟨'r', k1 + 1, by omega, ihb1, by rw [h, tempName_r]⟩
      · exact ⟨bb, k, by omega, hk2, he⟩
    refine ⟨by omega, ?_, ?_⟩
    · intro g hg
      simp only [List.mem_append, List.mem_singleton] at hg
      rcases hg with (hg | hg) | hg
      · obtain ⟨bb, k, hk1, hk2, he⟩ := hl1 g hg
        exact Or.inr ⟨bb, k, hk1, by omega, he⟩
      · obtain ⟨bb, k, hk1, hk2, he⟩ := hl2 g hg
        exact Or.inr ⟨bb, k, by omega, hk2, he⟩
      · subst hg; exact Or.inl rfl
    · intro htOk
      rw [List.map_append, List.map_append, List.nodup_append, List.nodup_append]
      refine ⟨⟨?_, ?_, ?_⟩, by simp, ?_⟩
      · exact iha3 (by rw [tempName_l]; exact targetOk_tempN 'l' (c + 1))
      · exact ihb3 (by rw [tempName_r]; exact targetOk_tempN 'r' (k1 + 1))
      · intro x hx1 hx2
        simp only [List.mem_map] at hx1 hx2
        obtain ⟨g1, hg1, he1⟩ := hx1
        obtain ⟨g2, hg2, he2⟩ := hx2
        obtain ⟨b1, j1, hj1, hj2, hoe1⟩ := hl1 g1 hg1
        obtain ⟨b2, j2, hj3, hj4, hoe2⟩ := hl2 g2 hg2
        rw [← he1, hoe1] at he2
        rw [hoe2] at he2
        obtain ⟨_, hjj⟩ := tempN_inj he2.symm
        omega
      · intro x hx hx2
        simp only [List.map_cons, List.map_nil, List.mem_singleton] at hx2
        subst hx2
        rcases List.mem_append.mp hx with hx | hx <;>
          simp only [List.mem_map] at hx
        · obtain ⟨g, hg, hge⟩ := hx
          obtain ⟨bb, k, hk1, _, he⟩ := hl1 g hg
          rw [he] at hge
          exact absurd (htOk bb k hge.symm) (by omega)
        · obtain ⟨g, hg, hge⟩ := hx
          obtain ⟨bb, k, hk1, _, he⟩ := hl2 g hg
          rw [he] at hge
          exact absurd (htOk bb k hge.symm) (by omega)
  | orE a b iha ihb =>
    intro target c
    simp only [astToGates, newTemp]
    rcases ha : astToGates a (tempName "l" (c + 1)) [] (c + 1) with ⟨s1, l1, k1⟩
    obtain ⟨iha1, iha2, iha3⟩ := iha (tempName "l" (c + 1)) (c + 1)
    rw [ha] at iha1 iha2 iha3
    dsimp only at iha1 iha2 iha3 ⊢
    rcases hb : astToGates b (tempName "r" (k1 + 1)) [] (k1 + 1) with ⟨s2, l2, k2⟩
    have hb' : astToGates b (tempName "r" (k1 + 1)) l1 (k1 + 1) = (s2, l1 ++ l2, k2) := by
      rw [astToGates_acc, hb]
    obtain ⟨ihb1, ihb2, ihb3⟩ := ihb (tempName "r" (k1 + 1)) (k1 + 1)
    rw [hb] at ihb1 ihb2 ihb3
    rw [hb']
    dsimp only at ihb1 ihb2 ihb3 ⊢
    have hl1 : ∀ g ∈ l1, ∃ bb k, c < k ∧ k ≤ k1 ∧ g.output = tempN bb k := by
      intro g hg
      rcases iha2 g hg with h | ⟨bb, k, hk1, hk2, he⟩
      · exact ⟨'l', c + 1, by omega, iha1, by rw [h, tempName_l]⟩
      · exact ⟨bb, k, by omega, hk2, he⟩
    have hl2 : ∀ g ∈ l2, ∃ bb k, k1 < k ∧ k ≤ k2 ∧ g.output = tempN bb k := by
      intro g hg
      rcases ihb2 g hg with h | ⟨bb, k, hk1, hk2, he⟩
      · exact ⟨'r', k1 + 1, by omega, ihb1, by rw [h, tempName_r]⟩
      · exact ⟨bb, k, by omega, hk2, he⟩
    refine ⟨by omega, ?_, ?_⟩
    · intro g hg
      simp only [List.mem_append, List.mem_singleton] at hg
      rcases hg with (hg | hg) | hg
      · obtain ⟨bb, k, hk1, hk2, he⟩ := hl1 g hg
        exact Or.inr ⟨bb, k, hk1, by omega, he⟩
      · obtain ⟨bb, k, hk1, hk2, he⟩ := hl2 g hg
        exact Or.inr ⟨bb, k, by omega, hk2, he⟩
      · subst hg; exact Or.inl rfl
    · intro htOk
      rw [List.map_append, List.map_append, List.nodup_append, List.nodup_append]
      refine ⟨⟨?_, ?_, ?_⟩, by simp, ?_⟩
      · exact iha3 (by rw [tempName_l]; exact targetOk_tempN 'l' (c + 1))
      · exact ihb3 (by rw [tempName_r]; exact targetOk_tempN 'r' (k1 + 1))
      · intro x hx1 hx2
        simp only [List.mem_map] at hx1 hx2
        obtain ⟨g1, hg1, he1⟩ := hx1
        obtain ⟨g2, hg2, he2⟩ := hx2
        obtain ⟨b1, j1, hj1, hj2, hoe1⟩ := hl1 g1 hg1
        obtain ⟨b2, j2, hj3, hj4, hoe2⟩ := hl2 g2 hg2
        rw [← he1, hoe1] at he2
        rw [hoe2] at he2
        obtain ⟨_, hjj⟩ := tempN_inj he2.symm
        omega
      · intro x hx hx2
        simp only [List.map_cons, List.map_nil, List.mem_singleton] at hx2
        subst hx2
        rcases List.mem_append.mp hx with hx | hx <;>
          simp only [List.mem_map] at hx
        · obtain ⟨g, hg, hge⟩ := hx
          obtain ⟨bb, k, hk1, _, he⟩ := hl1 g hg
          rw [he] at hge
          exact absurd (htOk bb k hge.symm) (by omega)
        · obtain ⟨g, hg, hge⟩ := hx
          obtain ⟨bb, k, hk1, _, he⟩ := hl2 g hg
          rw [he] at hge
          exact absurd (htOk bb k hge.symm) (by omega)

theorem parseBooleanExprToGates_outputs (expr : List Char) (target : String) (c : Nat)
    (gs : List Gate) (cq : Nat)
    (h : parseBooleanExprToGates expr target c = some (gs, cq))
    (ht : targetOkFor target c) :
    (gs.map (fun g => g.output)).Nodup := by
  unfold parseBooleanExprToGates at h
  rcases htok : tokenizeChars (rewriteTernaryToBool expr) with _ | toks
  · rw [htok] at h; exact Option.noConfusion h
  rw [htok] at h
  dsimp only at h
  by_cases hrpn : (shuntingYard toks).isEmpty
  · rw [if_pos hrpn] at h
    simp only [Option.some.injEq, Prod.mk.injEq] at h
    obtain ⟨h1, _⟩ := h
    rw [← h1]; simp
  rw [if_neg hrpn] at h
  rcases hast : rpnToAst (shuntingYard toks) with _ | (_ | ast)
  · rw [hast] at h; exact Option.noConfusion h
  · rw [hast] at h
    dsimp only at h
    simp only [Option.some.injEq, Prod.mk.injEq] at h
    obtain ⟨h1, _⟩ := h
    rw [← h1]; simp
  · rw [hast] at h
    dsimp only at h
    simp only [Option.some.injEq, Prod.mk.injEq] at h
    obtain ⟨h1, _⟩ := h
    rw [← h1]
    exact (astToGates_outputs ast target c).2.2 ht

/-- Claim C7 as amended: within one parsed assign statement the emitted
gate outputs are pairwise distinct — every intermediate gate drives a
fresh `tmp_l_k`/`tmp_r_k`/`tmp_n_k` temporary with a strictly increasing
counter index, and the target net is driven exactly once — provided the
left-hand side is not itself named like a compiler temporary (it does not
start with `tmp_`).  Across several assign statements no such guarantee
exists (two assignments may drive the same net). -/
theorem c7_amended_single_assign (line : String) (c : Nat) (gs : List Gate) (cq : Nat)
    (h : parseAssignStatement line c = some (gs, cq))
    (ht : (assignSplit line).all (fun p => !tmpPrefixed (String.mk p.1)) = true) :
    (gs.map (fun g => g.output)).Nodup := by
  simp only [parseAssignStatement] at h
  rcases hsplit : assignSplit line with _ | ⟨out, rhs⟩
  · rw [hsplit] at h
    simp only [Option.some.injEq, Prod.mk.injEq] at h
    obtain ⟨h1, _⟩ := h
    rw [← h1]; simp
  · rw [hsplit] at h
    rw [hsplit] at ht
    simp only [Option.all] at ht
    dsimp only at h ht
    by_cases hw : isWordB rhs
    · rw [if_pos hw] at h
      simp only [Option.some.injEq, Prod.mk.injEq] at h
      obtain ⟨h1, _⟩ := h
      rw [← h1]; simp
    · rw [if_neg hw] at h
      exact parseBooleanExprToGates_outputs rhs (String.mk out) c gs cq h
        (targetOk_of_not_tmpPrefixed _ c (by simpa using ht))

/-- Witness for the amended C7 at `assign y = a & b;`. -/
theorem c7_amended_witness :
    parseAssignStatement "assign y = a & b;" 0 =
      some ([⟨.AND, ["a", "b"], "y", "AND_2_y"⟩], 2) ∧
    (assignSplit "assign y = a & b;").all (fun p => !tmpPrefixed (String.mk p.1)) = true ∧
    (([⟨.AND, ["a", "b"], "y", "AND_2_y"⟩] : List Gate).map (fun g => g.output)).Nodup :=
  ⟨by decide, by decide,
   c7_amended_single_assign "assign y = a & b;" 0 [⟨.AND, ["a", "b"], "y", "AND_2_y"⟩] 2
     (by decide) (by decide)⟩


/-! ## Claim C10: idempotence of the ternary rewrite -/

theorem balCore_cons_lp (r : List Char) (d : Nat) :
    balCore ('(' :: r) d = balCore r (d + 1) := rfl

theorem balCore_cons_rp (r : List Char) (d : Nat) :
    balCore (')' :: r) d = match d with | 0 => none | d' + 1 => balCore r d' := rfl

theorem balCore_cons_other (c : Char) (r : List Char) (d : Nat)
    (h1 : c ≠ '(') (h2 : c ≠ ')') : balCore (c :: r) d = balCore r d := by
  simp [balCore, h1, h2]

theorem balCore_append : ∀ (p q : List Char) (b : Nat),
    balCore (p ++ q) b =
      match balCore p b with
      | none => none
      | some e => balCore q e := by
  intro p
  induction p with
  | nil => intro q b; rfl
  | cons c r ih =>
    intro q b
    by_cases hl : c = '('
    · subst hl
      rw [List.cons_append, balCore_cons_lp, balCore_cons_lp, ih]
    · by_cases hr : c = ')'
      · subst hr
        rw [List.cons_append, balCore_cons_rp, balCore_cons_rp]
        cases b with
        | zero => rfl
        | succ b' => dsimp only; rw [ih]
      · rw [List.cons_append, balCore_cons_other c _ _ hl hr,
          balCore_cons_other c _ _ hl hr, ih]

theorem balCore_nonparen : ∀ (l : List Char) (b : Nat),
    (∀ c ∈ l, c ≠ '(' ∧ c ≠ ')') → balCore l b = some b := by
  intro l
  induction l with
  | nil => intro b _; rfl
  | cons c r ih =>
    intro b h
    obtain ⟨h1, h2⟩ := h c (List.mem_cons_self c r)
    rw [balCore_cons_other c r b h1 h2]
    exact ih b (fun x hx => h x (List.mem_cons_of_mem c hx))

theorem balCore_shift : ∀ (p : List Char) (b e k : Nat),
    balCore p b = some e → balCore p (b + k) = some (e + k) := by
  intro p
  induction p with
  | nil =>
    intro b e k h
    simp only [balCore, Option.some.injEq] at h ⊢
    omega
  | cons c r ih =>
    intro b e k h
    by_cases hl : c = '('
    · subst hl
      rw [balCore_cons_lp] at h ⊢
      have h2 := ih (b + 1) e k h
      rw [show b + 1 + k = b + k + 1 by omega] at h2
      exact h2
    · by_cases hr : c = ')'
      · subst hr
        rw [balCore_cons_rp] at h ⊢
        cases b with
        | zero => exact Option.noConfusion h
        | succ b' =>
          dsimp only at h ⊢
          rw [show b' + 1 + k = b' + k + 1 by omega]
          dsimp only
          exact ih b' e k h
      · rw [balCore_cons_other c r _ hl hr] at h ⊢
        exact ih b e k h

theorem isWhitespace_nonparen (c : Char) (h : c.isWhitespace = true) :
    c ≠ '(' ∧ c ≠ ')' := by
  constructor <;> intro he <;> subst he <;> simp [Char.isWhitespace] at h

theorem dw_idem {α : Type} (p : α → Bool) :
    ∀ l : List α, List.dropWhile p (List.dropWhile p l) = List.dropWhile p l := by
  intro l
  induction l with
  | nil => rfl
  | cons c r ih =>
    by_cases hp : p c
    · simp [List.dropWhile_cons, hp, ih]
    · simp [List.dropWhile_cons, hp]

theorem trim_decomp (l : List Char) :
    ∃ w1 w2, l = w1 ++ trimChars l ++ w2 ∧
      (∀ c ∈ w1, c.isWhitespace = true) ∧ (∀ c ∈ w2, c.isWhitespace = true) := by
  refine ⟨l.takeWhile Char.isWhitespace,
    ((l.dropWhile Char.isWhitespace).reverse.takeWhile Char.isWhitespace).reverse, ?_, ?_, ?_⟩
  · have hX : (l.dropWhile Char.isWhitespace).reverse.reverse =
        trimChars l ++
          ((l.dropWhile Char.isWhitespace).reverse.takeWhile Char.isWhitespace).reverse := by
      conv_lhs => rw [← List.takeWhile_append_dropWhile
        (p := Char.isWhitespace) (l := (l.dropWhile Char.isWhitespace).reverse)]
      rw [List.reverse_append]
      rfl
    conv_lhs => rw [← List.takeWhile_append_dropWhile (p := Char.isWhitespace) (l := l),
      ← List.reverse_reverse (l.dropWhile Char.isWhitespace)]
    rw [List.append_assoc]
    congr 1
  · intro c hc
    exact List.mem_takeWhile_imp hc
  · intro c hc
    rw [List.mem_reverse] at hc
    exact List.mem_takeWhile_imp hc

theorem balancedB_trim (l : List Char) (h : balancedB l) : balancedB (trimChars l) := by
  obtain ⟨w1, w2, hdec, hw1, hw2⟩ := trim_decomp l
  unfold balancedB at h ⊢
  rw [hdec, List.append_assoc, balCore_append,
    balCore_nonparen w1 0 (fun c hc => isWhitespace_nonparen c (hw1 c hc))] at h
  dsimp only at h
  rw [balCore_append] at h
  rcases hbt : balCore (trimChars l) 0 with _ | e
  · rw [hbt] at h; exact Option.noConfusion h
  · rw [hbt] at h
    dsimp only at h
    rw [balCore_nonparen w2 e (fun c hc => isWhitespace_nonparen c (hw2 c hc))] at h
    exact h

theorem trim_idem (l : List Char) : trimChars (trimChars l) = trimChars l := by
  have hB : List.dropWhile Char.isWhitespace (trimChars l).reverse = (trimChars l).reverse := by
    unfold trimChars
    rw [List.reverse_reverse]
    exact dw_idem _ _
  have hA : List.dropWhile Char.isWhitespace (trimChars l) = trimChars l := by
    set y := List.dropWhile Char.isWhitespace l with hy
    have hyy : List.dropWhile Char.isWhitespace y = y := dw_idem Char.isWhitespace l
    obtain ⟨w2, hw2p, hdecy⟩ :
        ∃ w2, (∀ c ∈ w2, c.isWhitespace = true) ∧ y = trimChars l ++ w2 := by
      refine ⟨(y.reverse.takeWhile Char.isWhitespace).reverse, ?_, ?_⟩
      · intro c hc
        rw [List.mem_reverse] at hc
        exact List.mem_takeWhile_imp hc
      · conv_lhs => rw [← List.reverse_reverse y,
          ← List.takeWhile_append_dropWhile (p := Char.isWhitespace) (l := y.reverse)]
        rw [List.reverse_append]
        rfl
    rw [hdecy, List.dropWhile_append] at hyy
    by_cases he : (List.dropWhile Char.isWhitespace (trimChars l)).isEmpty
    · rw [if_pos he] at hyy
      have hwnil : List.dropWhile Char.isWhitespace w2 = [] := by
        rw [List.dropWhile_eq_nil_iff]
        exact hw2p
      rw [hwnil] at hyy
      have htn : trimChars l = [] := (List.append_eq_nil.mp hyy.symm).1
      rw [htn]
      rfl
    · rw [if_neg he] at hyy
      exact List.append_cancel_right hyy
  show ((List.dropWhile Char.isWhitespace
      (trimChars l)).reverse.dropWhile Char.isWhitespace).reverse = trimChars l
  rw [hA, hB, List.reverse_reverse]

theorem hasTopQ_cons_lp (r : List Char) (d : Nat) :
    hasTopQAux ('(' :: r) d = hasTopQAux r (d + 1) := rfl

theorem hasTopQ_cons_rp (r : List Char) (d : Nat) :
    hasTopQAux (')' :: r) d = hasTopQAux r (d - 1) := rfl

theorem hasTopQ_cons_other (c : Char) (r : List Char) (d : Nat)
    (h1 : c ≠ '(') (h2 : c ≠ ')') (h3 : ¬(c = '?' ∧ d = 0)) :
    hasTopQAux (c :: r) d = hasTopQAux r d := by
  simp [hasTopQAux, h1, h2, h3]

theorem hasTopQ_chain : ∀ (p : List Char) (b e : Nat), balCore p b = some e →
    ∀ rest : List Char, hasTopQAux (p ++ rest) (b + 1) = hasTopQAux rest (e + 1) := by
  intro p
  induction p with
  | nil =>
    intro b e h rest
    simp only [balCore, Option.some.injEq] at h
    subst h
    rfl
  | cons c r ih =>
    intro b e h rest
    by_cases hl : c = '('
    · subst hl
      rw [balCore_cons_lp] at h
      rw [List.cons_append, hasTopQ_cons_lp]
      exact ih (b + 1) e h rest
    · by_cases hr : c = ')'
      · subst hr
        rw [balCore_cons_rp] at h
        cases b with
        | zero => exact Option.noConfusion h
        | succ b' =>
          dsimp only at h
          rw [List.cons_append, hasTopQ_cons_rp]
          exact ih b' e h rest
      · rw [balCore_cons_other c r b hl hr] at h
        rw [List.cons_append,
          hasTopQ_cons_other c _ _ hl hr (fun hq => Nat.succ_ne_zero b hq.2)]
        exact ih b e h rest

theorem hasTopQ_part2 (p : List Char) (h : balCore p 1 = some 1) (rest : List Char) :
    hasTopQAux (p ++ rest) 2 = hasTopQAux rest 2 :=
  hasTopQ_chain p 1 1 h rest

theorem hasTopQ_part3 (p : List Char) (h : balCore p 2 = some 2) (rest : List Char) :
    hasTopQAux (p ++ rest) 3 = hasTopQAux rest 3 :=
  hasTopQ_chain p 2 2 h rest

theorem tmpl_eq2 (c t e : List Char) :
    tmpl c t e =
      ['(', '('] ++ (c ++ (([')', ' ', '&', ' ', '('] : List Char) ++
        (t ++ (([')', ')', ' ', '|', ' ', '(', '(', '~', '('] : List Char) ++
          (c ++ (([')', ')', ' ', '&', ' ', '('] : List Char) ++
            (e ++ ([')', ')'] : List Char)))))))) := by
  unfold tmpl
  rw [show "((".toList = ['(', '('] from rfl,
    show ") & (".toList = [')', ' ', '&', ' ', '('] from rfl,
    show ")) | ((~(".toList = [')', ')', ' ', '|', ' ', '(', '(', '~', '('] from rfl,
    show ")) & (".toList = [')', ')', ' ', '&', ' ', '('] from rfl,
    show "))".toList = [')', ')'] from rfl]
  simp [List.append_assoc]

theorem balCore_seg1 (rest : List Char) :
    balCore ((['(', '('] : List Char) ++ rest) 0 = balCore rest 2 := rfl

theorem balCore_seg2 (rest : List Char) :
    balCore (([')', ' ', '&', ' ', '('] : List Char) ++ rest) 2 = balCore rest 2 := rfl

theorem balCore_seg3 (rest : List Char) :
    balCore (([')', ')', ' ', '|', ' ', '(', '(', '~', '('] : List Char) ++ rest) 2 =
      balCore rest 3 := rfl

theorem balCore_seg4 (rest : List Char) :
    balCore (([')', ')', ' ', '&', ' ', '('] : List Char) ++ rest) 3 = balCore rest 2 := rfl

theorem balCore_fin : balCore ([')', ')'] : List Char) 2 = some 0 := rfl

theorem hasTopQ_seg1 (rest : List Char) :
    hasTopQAux ((['(', '('] : List Char) ++ rest) 0 = hasTopQAux rest 2 := rfl

theorem hasTopQ_seg2 (rest : List Char) :
    hasTopQAux (([')', ' ', '&', ' ', '('] : List Char) ++ rest) 2 = hasTopQAux rest 2 := rfl

theorem hasTopQ_seg3 (rest : List Char) :
    hasTopQAux (([')', ')', ' ', '|', ' ', '(', '(', '~', '('] : List Char) ++ rest) 2 =
      hasTopQAux rest 3 := rfl

theorem hasTopQ_seg4 (rest : List Char) :
    hasTopQAux (([')', ')', ' ', '&', ' ', '('] : List Char) ++ rest) 3 =
      hasTopQAux rest 2 := rfl

theorem hasTopQ_fin : hasTopQAux ([')', ')'] : List Char) 2 = false := rfl

theorem balancedB_tmpl (A B C : List Char)
    (hA : balancedB A) (hB : balancedB B) (hC : balancedB C) :
    balancedB (tmpl A B C) := by
  have hA2 : balCore A 2 = some 2 := balCore_shift A 0 0 2 hA
  have hB2 : balCore B 2 = some 2 := balCore_shift B 0 0 2 hB
  have hA3 : balCore A 3 = some 3 := balCore_shift A 0 0 3 hA
  have hC2 : balCore C 2 = some 2 := balCore_shift C 0 0 2 hC
  unfold balancedB
  rw [tmpl_eq2, balCore_seg1, balCore_append, hA2]
  dsimp only
  rw [balCore_seg2, balCore_append, hB2]
  dsimp only
  rw [balCore_seg3, balCore_append, hA3]
  dsimp only
  rw [balCore_seg4, balCore_append, hC2]
  dsimp only
  rw [balCore_fin]

theorem hasTopQ_tmpl (A B C : List Char)
    (hA : balancedB A) (hB : balancedB B) (hC : balancedB C) :
    hasTopQAux (tmpl A B C) 0 = false := by
  have hA1 : balCore A 1 = some 1 := balCore_shift A 0 0 1 hA
  have hB1 : balCore B 1 = some 1 := balCore_shift B 0 0 1 hB
  have hA2 : balCore A 2 = some 2 := balCore_shift A 0 0 2 hA
  have hC1 : balCore C 1 = some 1 := balCore_shift C 0 0 1 hC
  rw [tmpl_eq2, hasTopQ_seg1, hasTopQ_part2 A hA1, hasTopQ_seg2, hasTopQ_part2 B hB1,
    hasTopQ_seg3, hasTopQ_part3 A hA2, hasTopQ_seg4, hasTopQ_part2 C hC1, hasTopQ_fin]

theorem trim_fixed_of (l : List Char)
    (h1 : List.dropWhile Char.isWhitespace l = l)
    (h2 : List.dropWhile Char.isWhitespace l.reverse = l.reverse) :
    trimChars l = l := by
  show ((List.dropWhile Char.isWhitespace l).reverse.dropWhile Char.isWhitespace).reverse = l
  rw [h1, h2, List.reverse_reverse]

theorem trim_fixed_tmpl (A B C : List Char) : trimChars (tmpl A B C) = tmpl A B C := by
  apply trim_fixed_of
  · rw [tmpl_eq2]
    rfl
  · rw [tmpl_eq2]
    simp only [List.reverse_append, List.append_assoc, List.cons_append, List.nil_append,
      List.reverse_cons]
    rfl

theorem findTopAux_cons_lp (r : List Char) (i d : Nat) (q : Option Nat) :
    findTopAux ('(' :: r) i d q = findTopAux r (i + 1) (d + 1) q := rfl

theorem findTopAux_cons_rp (r : List Char) (i d : Nat) (q : Option Nat) :
    findTopAux (')' :: r) i d q = findTopAux r (i + 1) (d - 1) q := rfl

theorem findTopAux_cons_q0 (r : List Char) (i : Nat) :
    findTopAux ('?' :: r) i 0 none = findTopAux r (i + 1) 0 (some i) := rfl

theorem findTopAux_cons_colon (r : List Char) (i q : Nat) :
    findTopAux (':' :: r) i 0 (some q) = some (q, i) := rfl

theorem findTopAux_cons_other (c : Char) (r : List Char) (i d : Nat) (q : Option Nat)
    (h1 : c ≠ '(') (h2 : c ≠ ')') (h3 : ¬(c = '?' ∧ d = 0 ∧ q = none))
    (h4 : ¬(c = ':' ∧ d = 0 ∧ q ≠ none)) :
    findTopAux (c :: r) i d q = findTopAux r (i + 1) d q := by
  simp [findTopAux, h1, h2, h3, h4]

theorem findTopAux_none_of_noQ : ∀ (s : List Char) (d i : Nat),
    hasTopQAux s d = false → findTopAux s i d none = none := by
  intro s
  induction s with
  | nil => intro d i _; rfl
  | cons c r ih =>
    intro d i h
    by_cases hl : c = '('
    · subst hl
      rw [hasTopQ_cons_lp] at h
      rw [findTopAux_cons_lp]
      exact ih (d + 1) (i + 1) h
    · by_cases hr : c = ')'
      · subst hr
        rw [hasTopQ_cons_rp] at h
        rw [findTopAux_cons_rp]
        exact ih (d - 1) (i + 1) h
      · by_cases hqd : c = '?' ∧ d = 0
        · obtain ⟨rfl, rfl⟩ := hqd
          rw [show hasTopQAux ('?' :: r) 0 = true from rfl] at h
          exact Bool.noConfusion h
        · rw [hasTopQ_cons_other c r d hl hr hqd] at h
          rw [findTopAux_cons_other c r i d none hl hr
            (fun hx => hqd ⟨hx.1, hx.2.1⟩) (fun hx => hx.2.2 rfl)]
          exact ih d (i + 1) h

theorem ftB_cons_lp (r : List Char) (d : Nat) :
    ftB ('(' :: r) d = (ftB r (d + 1)).map (fun p => ('(' :: p.1, p.2)) := rfl

theorem ftB_cons_rp (r : List Char) (d : Nat) :
    ftB (')' :: r) d = (ftB r (d - 1)).map (fun p => (')' :: p.1, p.2)) := rfl

theorem ftB_cons_colon (r : List Char) : ftB (':' :: r) 0 = some ([], r) := rfl

theorem ftB_cons_other (c : Char) (r : List Char) (d : Nat)
    (h1 : c ≠ '(') (h2 : c ≠ ')') (h3 : ¬(c = ':' ∧ d = 0)) :
    ftB (c :: r) d = (ftB r d).map (fun p => (c :: p.1, p.2)) := by
  simp [ftB, h1, h2, h3]

theorem ftA_cons_lp (r : List Char) (d : Nat) :
    ftA ('(' :: r) d = (ftA r (d + 1)).map (fun p => ('(' :: p.1, p.2)) := rfl

theorem ftA_cons_rp (r : List Char) (d : Nat) :
    ftA (')' :: r) d = (ftA r (d - 1)).map (fun p => (')' :: p.1, p.2)) := rfl

theorem ftA_cons_q0 (r : List Char) :
    ftA ('?' :: r) 0 = (ftB r 0).map (fun p => ([], p.1, p.2)) := rfl

theorem ftA_cons_other (c : Char) (r : List Char) (d : Nat)
    (h1 : c ≠ '(') (h2 : c ≠ ')') (h3 : ¬(c = '?' ∧ d = 0)) :
    ftA (c :: r) d = (ftA r d).map (fun p => (c :: p.1, p.2)) := by
  simp [ftA, h1, h2, h3]

theorem findTopAux_eq_ftB : ∀ (s : List Char) (d i q : Nat),
    findTopAux s i d (some q) =
      match ftB s d with
      | none => none
      | some (t, _) => some (q, i + t.length) := by
  intro s
  induction s with
  | nil => intro d i q; rfl
  | cons c r ih =>
    intro d i q
    by_cases hl : c = '('
    · subst hl
      rw [findTopAux_cons_lp, ftB_cons_lp, ih (d + 1) (i + 1) q]
      rcases hb : ftB r (d + 1) with _ | ⟨t, el⟩
      · rfl
      · dsimp only [Option.map]
        simp only [List.length_cons]
        congr 2
        omega
    · by_cases hr : c = ')'
      · subst hr
        rw [findTopAux_cons_rp, ftB_cons_rp, ih (d - 1) (i + 1) q]
        rcases hb : ftB r (d - 1) with _ | ⟨t, el⟩
        · rfl
        · dsimp only [Option.map]
          simp only [List.length_cons]
          congr 2
          omega
      · by_cases hcd : c = ':' ∧ d = 0
        · obtain ⟨rfl, rfl⟩ := hcd
          rw [findTopAux_cons_colon, ftB_cons_colon]
          rfl
        · rw [findTopAux_cons_other c r i d (some q) hl hr
            (fun hx => Option.noConfusion hx.2.2) (fun hx => hcd ⟨hx.1, hx.2.1⟩),
            ftB_cons_other c r d hl hr hcd, ih d (i + 1) q]
          rcases hb : ftB r d with _ | ⟨t, el⟩
          · rfl
          · dsimp only [Option.map]
            simp only [List.length_cons]
            congr 2
            omega

theorem findTopAux_eq_ftA : ∀ (s : List Char) (d i : Nat),
    findTopAux s i d none =
      match ftA s d with
      | none => none
      | some (cnd, t, _) => some (i + cnd.length, i + cnd.length + 1 + t.length) := by
  intro s
  induction s with
  | nil => intro d i; rfl
  | cons c r ih =>
    intro d i
    by_cases hl : c = '('
    · subst hl
      rw [findTopAux_cons_lp, ftA_cons_lp, ih (d + 1) (i + 1)]
      rcases hb : ftA r (d + 1) with _ | ⟨cnd, t, el⟩
      · rfl
      · dsimp only [Option.map]
        simp only [List.length_cons]
        congr 2
        · omega
        · omega
    · by_cases hr : c = ')'
      · subst hr
        rw [findTopAux_cons_rp, ftA_cons_rp, ih (d - 1) (i + 1)]
        rcases hb : ftA r (d - 1) with _ | ⟨cnd, t, el⟩
        · rfl
        · dsimp only [Option.map]
          simp only [List.length_cons]
          congr 2
          · omega
          · omega
      · by_cases hqd : c = '?' ∧ d = 0
        · obtain ⟨rfl, rfl⟩ := hqd
          rw [findTopAux_cons_q0, ftA_cons_q0, findTopAux_eq_ftB r 0 (i + 1) i]
          rcases hb : ftB r 0 with _ | ⟨t, el⟩
          · rfl
          · dsimp only [Option.map]
            congr 2
        · rw [findTopAux_cons_other c r i d none hl hr
            (fun hx => hqd ⟨hx.1, hx.2.1⟩) (fun hx => hx.2.2 rfl),
            ftA_cons_other c r d hl hr hqd, ih d (i + 1)]
          rcases hb : ftA r d with _ | ⟨cnd, t, el⟩
          · rfl
          · dsimp only [Option.map]
            simp only [List.length_cons]
            congr 2
            · omega
            · omega

theorem ftB_recon : ∀ (s : List Char) (d : Nat) (t el : List Char),
    ftB s d = some (t, el) → s = t ++ (':' :: el) := by
  intro s
  induction s with
  | nil => intro d t el h; exact Option.noConfusion h
  | cons c r ih =>
    intro d t el h
    by_cases hl : c = '('
    · subst hl
      rw [ftB_cons_lp] at h
      rcases hb : ftB r (d + 1) with _ | ⟨t', el'⟩
      · rw [hb] at h; exact Option.noConfusion h
      · rw [hb] at h
        dsimp only [Option.map] at h
        simp only [Option.some.injEq, Prod.mk.injEq] at h
        obtain ⟨h1, h2⟩ := h
        rw [h2] at hb
        rw [← h1, List.cons_append, ih (d + 1) t' el hb]
    · by_cases hr : c = ')'
      · subst hr
        rw [ftB_cons_rp] at h
        rcases hb : ftB r (d - 1) with _ | ⟨t', el'⟩
        · rw [hb] at h; exact Option.noConfusion h
        · rw [hb] at h
          dsimp only [Option.map] at h
          simp only [Option.some.injEq, Prod.mk.injEq] at h
          obtain ⟨h1, h2⟩ := h
          rw [h2] at hb
          rw [← h1, List.cons_append, ih (d - 1) t' el hb]
      · by_cases hcd : c = ':' ∧ d = 0
        · obtain ⟨rfl, rfl⟩ := hcd
          rw [ftB_cons_colon] at h
          simp only [Option.some.injEq, Prod.mk.injEq] at h
          obtain ⟨h1, h2⟩ := h
          rw [← h1, ← h2, List.nil_append]
        · rw [ftB_cons_other c r d hl hr hcd] at h
          rcases hb : ftB r d with _ | ⟨t', el'⟩
          · rw [hb] at h; exact Option.noConfusion h
          · rw [hb] at h
            dsimp only [Option.map] at h
            simp only [Option.some.injEq, Prod.mk.injEq] at h
            obtain ⟨h1, h2⟩ := h
            rw [h2] at hb
            rw [← h1, List.cons_append, ih d t' el hb]

theorem ftA_recon : ∀ (s : List Char) (d : Nat) (cnd t el : List Char),
    ftA s d = some (cnd, t, el) → s = cnd ++ ('?' :: (t ++ (':' :: el))) := by
  intro s
  induction s with
  | nil => intro d cnd t el h; exact Option.noConfusion h
  | cons c r ih =>
    intro d cnd t el h
    by_cases hl : c = '('
    · subst hl
      rw [ftA_cons_lp] at h
      rcases hb : ftA r (d + 1) with _ | ⟨cnd', t', el'⟩
      · rw [hb] at h; exact Option.noConfusion h
      · rw [hb] at h
        dsimp only [Option.map] at h
        simp only [Option.some.injEq, Prod.mk.injEq] at h
        obtain ⟨h1, h2, h3⟩ := h
        rw [h2, h3] at hb
        rw [← h1, List.cons_append, ih (d + 1) cnd' t el hb]
    · by_cases hr : c = ')'
      · subst hr
        rw [ftA_cons_rp] at h
        rcases hb : ftA r (d - 1) with _ | ⟨cnd', t', el'⟩
        · rw [hb] at h; exact Option.noConfusion h
        · rw [hb] at h
          dsimp only [Option.map] at h
          simp only [Option.some.injEq, Prod.mk.injEq] at h
          obtain ⟨h1, h2, h3⟩ := h
          rw [h2, h3] at hb
          rw [← h1, List.cons_append, ih (d - 1) cnd' t el hb]
      · by_cases hqd : c = '?' ∧ d = 0
        · obtain ⟨rfl, rfl⟩ := hqd
          rw [ftA_cons_q0] at h
          rcases hb : ftB r 0 with _ | ⟨t', el'⟩
          · rw [hb] at h; exact Option.noConfusion h
          · rw [hb] at h
            dsimp only [Option.map] at h
            simp only [Option.some.injEq, Prod.mk.injEq] at h
            obtain ⟨h1, h2, h3⟩ := h
            rw [h2, h3] at hb
            rw [← h1, List.nil_append, ftB_recon r 0 t el hb]
        · rw [ftA_cons_other c r d hl hr hqd] at h
          rcases hb : ftA r d with _ | ⟨cnd', t', el'⟩
          · rw [hb] at h; exact Option.noConfusion h
          · rw [hb] at h
            dsimp only [Option.map] at h
            simp only [Option.some.injEq, Prod.mk.injEq] at h
            obtain ⟨h1, h2, h3⟩ := h
            rw [h2, h3] at hb
            rw [← h1, List.cons_append, ih d cnd' t el hb]

theorem ftB_parts_balanced : ∀ (s : List Char) (d e : Nat) (t el : List Char),
    balCore s d = some e → ftB s d = some (t, el) →
    balCore t d = some 0 ∧ balCore el 0 = some e := by
  intro s
  induction s with
  | nil => intro d e t el _ h; exact Option.noConfusion h
  | cons c r ih =>
    intro d e t el hbal h
    by_cases hl : c = '('
    · subst hl
      rw [balCore_cons_lp] at hbal
      rw [ftB_cons_lp] at h
      rcases hb : ftB r (d + 1) with _ | ⟨t', el'⟩
      · rw [hb] at h; exact Option.noConfusion h
      · rw [hb] at h
        dsimp only [Option.map] at h
        simp only [Option.some.injEq, Prod.mk.injEq] at h
        obtain ⟨h1, h2⟩ := h
        rw [h2] at hb
        obtain ⟨hp1, hp2⟩ := ih (d + 1) e t' el hbal hb
        refine ⟨?_, hp2⟩
        rw [← h1, balCore_cons_lp]
        exact hp1
    · by_cases hr : c = ')'
      · subst hr
        rw [balCore_cons_rp] at hbal
        rw [ftB_cons_rp] at h
        cases d with
        | zero => exact Option.noConfusion hbal
        | succ d' =>
          dsimp only at hbal
          rcases hb : ftB r d' with _ | ⟨t', el'⟩
          · rw [show d' + 1 - 1 = d' from rfl, hb] at h
            exact Option.noConfusion h
          · rw [show d' + 1 - 1 = d' from rfl, hb] at h
            dsimp only [Option.map] at h
            simp only [Option.some.injEq, Prod.mk.injEq] at h
            obtain ⟨h1, h2⟩ := h
            rw [h2] at hb
            obtain ⟨hp1, hp2⟩ := ih d' e t' el hbal hb
            refine ⟨?_, hp2⟩
            rw [← h1, balCore_cons_rp]
            exact hp1
      · by_cases hcd : c = ':' ∧ d = 0
        · obtain ⟨rfl, rfl⟩ := hcd
          rw [balCore_cons_other ':' r 0 hl hr] at hbal
          rw [ftB_cons_colon] at h
          simp only [Option.some.injEq, Prod.mk.injEq] at h
          obtain ⟨h1, h2⟩ := h
          rw [← h1, ← h2]
          exact ⟨rfl, hbal⟩
        · rw [balCore_cons_other c r d hl hr] at hbal
          rw [ftB_cons_other c r d hl hr hcd] at h
          rcases hb : ftB r d with _ | ⟨t', el'⟩
          · rw [hb] at h; exact Option.noConfusion h
          · rw [hb] at h
            dsimp only [Option.map] at h
            simp only [Option.some.injEq, Prod.mk.injEq] at h
            obtain ⟨h1, h2⟩ := h
            rw [h2] at hb
            obtain ⟨hp1, hp2⟩ := ih d e t' el hbal hb
            refine ⟨?_, hp2⟩
            rw [← h1, balCore_cons_other c t' d hl hr]
            exact hp1

theorem ftA_parts_balanced : ∀ (s : List Char) (d e : Nat) (cnd t el : List Char),
    balCore s d = some e → ftA s d = some (cnd, t, el) →
    balCore cnd d = some 0 ∧ balancedB t ∧ balCore el 0 = some e := by
  intro s
  induction s with
  | nil => intro d e cnd t el _ h; exact Option.noConfusion h
  | cons c r ih =>
    intro d e cnd t el hbal h
    by_cases hl : c = '('
    · subst hl
      rw [balCore_cons_lp] at hbal
      rw [ftA_cons_lp] at h
      rcases hb : ftA r (d + 1) with _ | ⟨cnd', t', el'⟩
      · rw [hb] at h; exact Option.noConfusion h
      · rw [hb] at h
        dsimp only [Option.map] at h
        simp only [Option.some.injEq, Prod.mk.injEq] at h
        obtain ⟨h1, h2, h3⟩ := h
        rw [h2, h3] at hb
        obtain ⟨hp1, hp2, hp3⟩ := ih (d + 1) e cnd' t el hbal hb
        refine ⟨?_, hp2, hp3⟩
        rw [← h1, balCore_cons_lp]
        exact hp1
    · by_cases hr : c = ')'
      · subst hr
        rw [balCore_cons_rp] at hbal
        rw [ftA_cons_rp] at h
        cases d with
        | zero => exact Option.noConfusion hbal
        | succ d' =>
          dsimp only at hbal
          rcases hb : ftA r d' with _ | ⟨cnd', t', el'⟩
          · rw [show d' + 1 - 1 = d' from rfl, hb] at h
            exact Option.noConfusion h
          · rw [show d' + 1 - 1 = d' from rfl, hb] at h
            dsimp only [Option.map] at h
            simp only [Option.some.injEq, Prod.mk.injEq] at h
            obtain ⟨h1, h2, h3⟩ := h
            rw [h2, h3] at hb
            obtain ⟨hp1, hp2, hp3⟩ := ih d' e cnd' t el hbal hb
            refine ⟨?_, hp2, hp3⟩
            rw [← h1, balCore_cons_rp]
            exact hp1
      · by_cases hqd : c = '?' ∧ d = 0
        · obtain ⟨rfl, rfl⟩ := hqd
          rw [balCore_cons_other '?' r 0 hl hr] at hbal
          rw [ftA_cons_q0] at h
          rcases hb : ftB r 0 with _ | ⟨t', el'⟩
          · rw [hb] at h; exact Option.noConfusion h
          · rw [hb] at h
            dsimp only [Option.map] at h
            simp only [Option.some.injEq, Prod.mk.injEq] at h
            obtain ⟨h1, h2, h3⟩ := h
            rw [h2, h3] at hb
            obtain ⟨hp1, hp2⟩ := ftB_parts_balanced r 0 e t el hbal hb
            exact ⟨by rw [← h1]; rfl, hp1, hp2⟩
        · rw [balCore_cons_other c r d hl hr] at hbal
          rw [ftA_cons_other c r d hl hr hqd] at h
          rcases hb : ftA r d with _ | ⟨cnd', t', el'⟩
          · rw [hb] at h; exact Option.noConfusion h
          · rw [hb] at h
            dsimp only [Option.map] at h
            simp only [Option.some.injEq, Prod.mk.injEq] at h
            obtain ⟨h1, h2, h3⟩ := h
            rw [h2, h3] at hb
            obtain ⟨hp1, hp2, hp3⟩ := ih d e cnd' t el hbal hb
            refine ⟨?_, hp2, hp3⟩
            rw [← h1, balCore_cons_other c cnd' d hl hr]
            exact hp1

theorem split_balanced (s : List Char) (q colon : Nat) (hb : balancedB s)
    (hft : findTopTernary s = some (q, colon)) :
    balancedB (trimChars (s.take q)) ∧
    balancedB (trimChars ((s.drop (q + 1)).take (colon - q - 1))) ∧
    balancedB (trimChars (s.drop (colon + 1))) := by
  unfold findTopTernary at hft
  rw [findTopAux_eq_ftA s 0 0] at hft
  rcases hA : ftA s 0 with _ | ⟨cnd, t, el⟩
  · rw [hA] at hft; exact Option.noConfusion hft
  rw [hA] at hft
  dsimp only at hft
  simp only [Option.some.injEq, Prod.mk.injEq, Nat.zero_add] at hft
  obtain ⟨hq, hcolon⟩ := hft
  have hrec := ftA_recon s 0 cnd t el hA
  obtain ⟨hc0, ht0, hel0⟩ := ftA_parts_balanced s 0 0 cnd t el hb hA
  have htake : s.take q = cnd := by
    rw [hrec]
    exact List.take_left' hq
  have hdrop1 : s.drop (q + 1) = t ++ (':' :: el) := by
    have hs2 : s = (cnd ++ ['?']) ++ (t ++ (':' :: el)) := by
      rw [hrec]
      simp
    rw [hs2]
    exact List.drop_left' (by simp; omega)
  have hdrop2 : s.drop (colon + 1) = el := by
    have hs3 : s = (cnd ++ ['?'] ++ t ++ [':']) ++ el := by
      rw [hrec]
      simp
    rw [hs3]
    exact List.drop_left' (by simp; omega)
  refine ⟨?_, ?_, ?_⟩
  · rw [htake]
    exact balancedB_trim cnd hc0
  · rw [hdrop1]
    have htk : (t ++ (':' :: el)).take (colon - q - 1) = t :=
      List.take_left' (by omega)
    rw [htk]
    exact balancedB_trim t ht0
  · rw [hdrop2]
    exact balancedB_trim el hel0

theorem rewriteAux_balanced : ∀ (fuel : Nat) (s : List Char),
    balancedB s → balancedB (rewriteAux fuel s) := by
  intro fuel
  induction fuel with
  | zero => intro s h; exact h
  | succ f ih =>
    intro s h
    rcases hft : findTopTernary s with _ | ⟨q, colon⟩
    · simp only [rewriteAux, hft]
      exact h
    · simp only [rewriteAux, hft]
      obtain ⟨h1, h2, h3⟩ := split_balanced s q colon h hft
      exact balancedB_tmpl _ _ _ (ih _ h1) (ih _ h2) (ih _ h3)

theorem rewriteTernary_eq (t : List Char) : rewriteTernaryToBool t =
    if (trimChars t).contains '?' then rewriteAux (trimChars t).length (trimChars t)
    else trimChars t := by
  simp only [rewriteTernaryToBool]

theorem rewriteAux_of_none (m : Nat) (u : List Char) (hft : findTopTernary u = none) :
    rewriteAux (m + 1) u = u := by
  simp only [rewriteAux, hft]

theorem ne_nil_of_contains (u : List Char) (h : u.contains '?' = true) : u ≠ [] := by
  intro he
  subst he
  exact Bool.noConfusion h

theorem length_succ_of_ne_nil (u : List Char) (h : u ≠ []) : ∃ m, u.length = m + 1 := by
  cases u with
  | nil => exact absurd rfl h
  | cons c r => exact ⟨r.length, rfl⟩

theorem tmpl_ne_nil (A B C : List Char) : tmpl A B C ≠ [] := by
  rw [tmpl_eq2]
  simp

/-- Claim C10 as amended: on any expression whose trimmed form has balanced
parentheses, the ternary rewrite is idempotent — a second application of
`_rewrite_ternary_to_bool` returns its input unchanged, because the first
application leaves no top-level `?` behind.  (On unbalanced inputs the
clamped depth counter can misidentify a nested `?` as top-level and a second
application rewrites again, so the unrestricted claim is false.) -/
theorem c10_amended_balanced_idempotent (s : List Char) (hb : balancedB (trimChars s)) :
    rewriteTernaryToBool (rewriteTernaryToBool s) = rewriteTernaryToBool s := by
  rw [rewriteTernary_eq s]
  by_cases hq : (trimChars s).contains '?'
  · rw [if_pos hq]
    obtain ⟨m, hm⟩ := length_succ_of_ne_nil _ (ne_nil_of_contains _ hq)
    rcases hft : findTopTernary (trimChars s) with _ | ⟨q, colon⟩
    · rw [hm, rewriteAux_of_none m _ hft]
      rw [rewriteTernary_eq (trimChars s), trim_idem, if_pos hq, hm,
        rewriteAux_of_none m _ hft]
    · rw [hm]
      have hrw : rewriteAux (m + 1) (trimChars s) =
          tmpl (rewriteAux m (trimChars ((trimChars s).take q)))
               (rewriteAux m (trimChars (((trimChars s).drop (q + 1)).take (colon - q - 1))))
               (rewriteAux m (trimChars ((trimChars s).drop (colon + 1)))) := by
        simp only [rewriteAux, hft]
      rw [hrw]
      obtain ⟨hb1, hb2, hb3⟩ := split_balanced (trimChars s) q colon hb hft
      have hA := rewriteAux_balanced m _ hb1
      have hB := rewriteAux_balanced m _ hb2
      have hC := rewriteAux_balanced m _ hb3
      rw [rewriteTernary_eq, trim_fixed_tmpl]
      have hnone : findTopTernary (tmpl
          (rewriteAux m (trimChars ((trimChars s).take q)))
          (rewriteAux m (trimChars (((trimChars s).drop (q + 1)).take (colon - q - 1))))
          (rewriteAux m (trimChars ((trimChars s).drop (colon + 1))))) = none := by
        unfold findTopTernary
        exact findTopAux_none_of_noQ _ 0 0 (hasTopQ_tmpl _ _ _ hA hB hC)
      by_cases hq2 : (tmpl
          (rewriteAux m (trimChars ((trimChars s).take q)))
          (rewriteAux m (trimChars (((trimChars s).drop (q + 1)).take (colon - q - 1))))
          (rewriteAux m (trimChars ((trimChars s).drop (colon + 1))))).contains '?'
      · rw [if_pos hq2]
        obtain ⟨m2, hm2⟩ := length_succ_of_ne_nil _ (tmpl_ne_nil _ _ _)
        rw [hm2, rewriteAux_of_none m2 _ hnone]
      · rw [if_neg hq2]
  · rw [if_neg hq]
    rw [rewriteTernary_eq (trimChars s), trim_idem, if_neg hq]

/-- Counterexample to C10 as stated: on the (unbalanced) expression
`c ? )) ? x : )) : z` the clamped depth scan pairs the first `?` with a
`:` inside what a second pass considers a different nesting, and applying
the rewrite twice yields a different string than applying it once. -/
theorem c10_counterexample : ¬ c10Claim := by
  intro h
  exact absurd (h "c ? )) ? x : )) : z".toList) (by decide)

/-- Witness for the amended C10 at the balanced expression `sel ? a : b`. -/
theorem c10_amended_witness :
    balancedB (trimChars "sel ? a : b".toList) ∧
    rewriteTernaryToBool (rewriteTernaryToBool "sel ? a : b".toList) =
      rewriteTernaryToBool "sel ? a : b".toList :=
  ⟨by show balCore (trimChars "sel ? a : b".toList) 0 = some 0; decide,
   c10_amended_balanced_idempotent "sel ? a : b".toList
     (by show balCore (trimChars "sel ? a : b".toList) 0 = some 0; decide)⟩

end RtlSynth
